import Mathlib

/-!
Verification of the `hyperdisk::shard` storage unit of HyperDex.

The repository ships the declaration header `src/hyperdisk/shard.h`; the
implementation file `shard.cc` is not part of the sources, so the operations
below are modelled from the specification (`spec.md`, sections 3, 4 and 8)
and from the contracts stated in the comments of `shard.h`.  Machine
integers (`uint32_t`, `uint64_t`, `size_t`) are modelled as `Nat`; the byte
arithmetic of the data region (record sizes, offsets, cursors) is kept
exact, while the byte-level record codec is abstracted into a map from
data-region offsets to decoded records, which preserves every property the
claims mention.
-/

namespace Hyperdisk

/-- Modelled from the spec: `hyperdisk/returncode.h` is not under `src/`;
the return codes are the ones listed in spec section 6 and in the comments
of `shard.h`. -/
inductive returncode where
  | SUCCESS
  | NOTFOUND
  | DATAFULL
  | HASHFULL
  | SEARCHFULL
  | SYNCFAILED
  | DROPFAILED
deriving DecidableEq, Repr

/-- The file-format constants of spec section 6: `HASH_TABLE_ENTRIES`,
`SEARCH_INDEX_ENTRIES` and `DATA_SIZE` are build-time parameters of the
shard file format, so the model is parameterised by them. -/
structure params where
  HASH_TABLE_ENTRIES : Nat
  SEARCH_INDEX_ENTRIES : Nat
  DATA_SIZE : Nat
deriving Repr

/-- Basic sanity of the build-time constants: the hash table has at least
one slot (a bucket index `primary_hash mod HASH_TABLE_ENTRIES` exists). -/
def Sane (P : params) : Prop := 0 < P.HASH_TABLE_ENTRIES

/-- A hash-table entry (spec section 3): 64 bits on disk, the low half the
stored primary hash (`0` = empty slot, `1` = dead slot), the high half the
data-region offset of the record (`0` for empty/dead). -/
structure hash_entry where
  hash : Nat
  offset : Nat
deriving DecidableEq, Repr

/-- A search-index entry (spec section 3): `(primary_hash, secondary_hash,
data_offset, invalidation_offset)`, where `invalidation_offset = 0` means
the entry is live. -/
structure search_entry where
  primary_hash : Nat
  secondary_hash : Nat
  data_offset : Nat
  invalidation_offset : Nat
deriving DecidableEq, Repr

/-- A decoded data record (spec section 3): a non-zero version, the key
bytes and the list of value byte strings.  Bytes are modelled as `Nat`. -/
structure record where
  version : Nat
  key : List Nat
  values : List (List Nat)
deriving DecidableEq, Repr

/-- A coordinate (spec section 6): an opaque pure predicate over
`(primary_hash, secondary_hash, key, values)` consumed by `copy_to`. -/
abbrev coordinate := Nat → Nat → List Nat → List (List Nat) → Bool

/-- Modelled from the spec: the in-memory state of a `shard` (`shard.cc` is
not under `src/`).  The hash table is a total map from bucket index to
entry (only buckets below `HASH_TABLE_ENTRIES` are ever probed or
written), the search index is the append-only list of its first
`m_search_offset` slots, and the data region is abstracted as a map from
byte offset to the decoded record written there, together with the byte
cursor `m_data_offset`. -/
structure shard where
  hash_table : Nat → hash_entry
  search_index : List search_entry
  data : Nat → Option record
  data_offset : Nat

/-- Modelled from the spec: `shard::create` produces a fresh zero-filled
shard.  The data cursor starts at the fixed non-zero offset `8`: the
slot-state encoding of spec section 3 (a hash-table offset of `0` denotes
an empty or dead slot) requires that no record is ever written at
data-region offset `0`. -/
def create (_P : params) : shard :=
  { hash_table := fun _ => ⟨0, 0⟩
    search_index := []
    data := fun _ => none
    data_offset := 8 }

/-- `shard::data_size` (record codec, spec section 3): the encoded byte
size of a record, `8 + 4 + key_size + 4 + sum_i (4 + value_size_i)`. -/
def data_size (key : List Nat) (value : List (List Nat)) : Nat :=
  8 + 4 + key.length + 4 + (value.map (fun v => 4 + v.length)).sum

/-- The key stored by the record at offset `o`, if a record is there
(readers `read_key_size`/`read_key` of the codec). -/
def keyAt (dat : Nat → Option record) (o : Nat) : Option (List Nat) :=
  (dat o).map record.key

/-- The bucket visited at step `i` of a linear probe that starts at bucket
`primary_hash mod HASH_TABLE_ENTRIES` (spec section 4.3). -/
def bucketAt (P : params) (ph i : Nat) : Nat :=
  (ph % P.HASH_TABLE_ENTRIES + i) % P.HASH_TABLE_ENTRIES

/-- The probe position at which bucket `b` is visited when probing from
`primary_hash mod HASH_TABLE_ENTRIES`; inverse of `bucketAt` for
`b < HASH_TABLE_ENTRIES`. -/
def posOf (P : params) (ph b : Nat) : Nat :=
  (b + P.HASH_TABLE_ENTRIES - ph % P.HASH_TABLE_ENTRIES) % P.HASH_TABLE_ENTRIES

/-- The record comparison of the resolving probe (spec section 4.3, step
3) at bucket `b`: the slot references a record (`offset ≠ 0`), stores the
probed primary hash, and the referenced record's key is byte-for-byte
equal to the probed key. -/
def live_match (s : shard) (ph : Nat) (key : List Nat) (b : Nat) : Prop :=
  (s.hash_table b).offset ≠ 0 ∧ (s.hash_table b).hash = ph ∧
    keyAt s.data (s.hash_table b).offset = some key

instance (s : shard) (ph : Nat) (key : List Nat) (b : Nat) :
    Decidable (live_match s ph key b) := by
  unfold live_match; infer_instance

/-- The full match test at bucket `b`: the slot is neither empty nor dead
and the record comparison succeeds. -/
def slot_matches (s : shard) (ph : Nat) (key : List Nat) (b : Nat) : Prop :=
  (s.hash_table b).hash ≠ 0 ∧ (s.hash_table b).hash ≠ 1 ∧ live_match s ph key b

instance (s : shard) (ph : Nat) (key : List Nat) (b : Nat) :
    Decidable (slot_matches s ph key b) := by
  unfold slot_matches; infer_instance

/-- Modelled from the spec: the loop of the resolving probe
`shard::find_bucket(primary_hash, key, entry, offset)` (spec section 4.3
and the contract comment in `shard.h`).  `i` is the probe position, `fuel`
the number of slots still to scan, `reusable` the first dead slot seen so
far.  It stops at the first empty slot, returning the first dead-or-empty
slot seen; reports a match at a live slot with equal hash and key; and
after scanning every slot returns the first dead slot if one was seen and
the sentinel `HASH_TABLE_ENTRIES` otherwise ("no bucket is available"). -/
def find_bucket_loop (P : params) (s : shard) (ph : Nat) (key : List Nat) :
    Nat → Nat → Option Nat → Nat × Nat × Bool
  | 0, _, reusable =>
    match reusable with
    | some d => (d, 0, false)
    | none => (P.HASH_TABLE_ENTRIES, 0, false)
  | fuel + 1, i, reusable =>
    if (s.hash_table (bucketAt P ph i)).hash = 0 then
      (reusable.getD (bucketAt P ph i), 0, false)
    else if (s.hash_table (bucketAt P ph i)).hash = 1 then
      find_bucket_loop P s ph key fuel (i + 1) (some (reusable.getD (bucketAt P ph i)))
    else if live_match s ph key (bucketAt P ph i) then
      (bucketAt P ph i, (s.hash_table (bucketAt P ph i)).offset, true)
    else
      find_bucket_loop P s ph key fuel (i + 1) reusable

/-- The resolving probe `shard::find_bucket(primary_hash, key, entry,
offset)`: returns `(entry, offset, matched)`. -/
def find_bucket (P : params) (s : shard) (ph : Nat) (key : List Nat) :
    Nat × Nat × Bool :=
  find_bucket_loop P s ph key P.HASH_TABLE_ENTRIES 0 none

/-- Modelled from the spec: the unresolving probe `shard::find_bucket
(primary_hash, entry)` used by `copy_to`, which scans for the first empty
slot (spec section 4.3); `none` when the table has no empty slot, which
the caller's preconditions exclude. -/
def find_empty_bucket (P : params) (ht : Nat → hash_entry) (ph : Nat) :
    Nat → Nat → Option Nat
  | 0, _ => none
  | fuel + 1, i =>
    let b := bucketAt P ph i
    if (ht b).hash = 0 then some b
    else find_empty_bucket P ht ph fuel (i + 1)

/-- `shard::invalidate_search_index(to_invalidate, invalidate_with)` (spec
section 4.4): every entry whose `data_offset` equals `to_invalidate` and
whose `invalidation_offset` is still `0` gets `invalidation_offset :=
invalidate_with`. -/
def invalidate_search_index (si : List search_entry)
    (to_invalidate invalidate_with : Nat) : List search_entry :=
  si.map fun e =>
    if e.data_offset = to_invalidate ∧ e.invalidation_offset = 0 then
      { e with invalidation_offset := invalidate_with }
    else e

/-- `shard::get` (spec section 4.5): resolving probe, then decode the
record on a match.  `some (values, version)` models `SUCCESS` with the out
parameters, `none` models `NOTFOUND`. -/
def get (P : params) (s : shard) (ph : Nat) (key : List Nat) :
    Option (List (List Nat) × Nat) :=
  let fb := find_bucket P s ph key
  if fb.2.2 then
    match s.data fb.2.1 with
    | some r => some (r.values, r.version)
    | none => none
  else none

/-- The state produced by the success path of `shard::put` (spec section
4.5, steps 4-7): the record written at the data cursor, the live
search-index entry appended, the superseded entries invalidated when the
probe matched, and the probed hash-table slot overwritten with
`(new_offset, primary_hash)`. -/
def put_state (P : params) (s : shard) (ph sh : Nat) (key : List Nat)
    (value : List (List Nat)) (version : Nat) : shard :=
  { hash_table :=
      Function.update s.hash_table (find_bucket P s ph key).1
        ⟨ph, s.data_offset⟩
    search_index :=
      if (find_bucket P s ph key).2.2 then
        invalidate_search_index
          (s.search_index ++ [⟨ph, sh, s.data_offset, 0⟩])
          (find_bucket P s ph key).2.1 s.data_offset
      else s.search_index ++ [⟨ph, sh, s.data_offset, 0⟩]
    data := Function.update s.data s.data_offset (some ⟨version, key, value⟩)
    data_offset := s.data_offset + data_size key value }

/-- Modelled from the spec: `shard::put` (spec section 4.5).  Checks
`DATAFULL`, then `SEARCHFULL`, then probes and checks `HASHFULL`; on
success writes the record at the data cursor, appends a live search-index
entry, invalidates the superseded entries if the probe matched, and
installs the new hash-table slot. -/
def put (P : params) (s : shard) (ph sh : Nat) (key : List Nat)
    (value : List (List Nat)) (version : Nat) : returncode × shard :=
  if P.DATA_SIZE < s.data_offset + data_size key value then
    (returncode.DATAFULL, s)
  else if s.search_index.length = P.SEARCH_INDEX_ENTRIES then
    (returncode.SEARCHFULL, s)
  else if (find_bucket P s ph key).1 = P.HASH_TABLE_ENTRIES then
    (returncode.HASHFULL, s)
  else
    (returncode.SUCCESS, put_state P s ph sh key value version)

/-- The state produced by the success path of `shard::del` (spec section
4.5): the 8-byte tombstone consumes data space, the search-index entries
of the old record are invalidated with the tombstone offset, and the
hash-table slot is marked dead (`hash = 1`, `offset = 0`). -/
def del_state (P : params) (s : shard) (ph : Nat) (key : List Nat) : shard :=
  { hash_table := Function.update s.hash_table (find_bucket P s ph key).1 ⟨1, 0⟩
    search_index :=
      invalidate_search_index s.search_index (find_bucket P s ph key).2.1
        s.data_offset
    data := s.data
    data_offset := s.data_offset + 8 }

/-- Modelled from the spec: `shard::del` (spec section 4.5).  A resolving
probe; `NOTFOUND` if it does not match; otherwise an 8-byte tombstone is
appended to the data region (`DATAFULL` if that overflows), the
search-index entries of the old record are invalidated with the tombstone
offset, and the hash-table slot is marked dead (`hash = 1, offset = 0`).
The spec leaves the tombstone's exact size open; the model uses the 8-byte
version word, whose value does not affect any claim. -/
def del (P : params) (s : shard) (ph : Nat) (key : List Nat) :
    returncode × shard :=
  if (find_bucket P s ph key).2.2 then
    if P.DATA_SIZE < s.data_offset + 8 then
      (returncode.DATAFULL, s)
    else
      (returncode.SUCCESS, del_state P s ph key)
  else (returncode.NOTFOUND, s)

/-- `shard::used_space` (spec section 4.5): the percentage of the data
region used by current or stale data, `100 * data_offset_ / DATA_SIZE` in
integer arithmetic. -/
def used_space (P : params) (s : shard) : Nat :=
  100 * s.data_offset / P.DATA_SIZE

/-- `shard::stale_space` (spec section 4.5): the percentage of the data
region occupied by records whose search-index entry is invalidated. -/
def stale_space (P : params) (s : shard) : Nat :=
  100 * ((s.search_index.filterMap fun e =>
    if e.invalidation_offset ≠ 0 then
      (s.data e.data_offset).map fun r => data_size r.key r.values
    else none).sum) / P.DATA_SIZE

/-- `shard::async` and `shard::sync` only request an msync of the mapping;
they never change the logical state.  The model keeps the success case
(the `SYNCFAILED` OS failure carries no state change either). -/
def sync (s : shard) : returncode × shard :=
  (returncode.SUCCESS, s)

/-- A `shard_snapshot` (spec section 4.5): the pair of cursors captured
under the lock that excludes PUT/DEL. -/
structure shard_snapshot where
  limit_data : Nat
  limit_search : Nat
deriving DecidableEq, Repr

/-- `shard::make_snapshot`: capture `(data_offset_, search_offset_)`. -/
def make_snapshot (s : shard) : shard_snapshot :=
  ⟨s.data_offset, s.search_index.length⟩

/-- Spec section 4.5: an entry is live as of a snapshot iff its
invalidation offset is `0` or at least the captured data cursor. -/
def snapshot_live (snap : shard_snapshot) (e : search_entry) : Bool :=
  e.invalidation_offset == 0 || decide (snap.limit_data ≤ e.invalidation_offset)

/-- The `(key, values, version)` sequence yielded by iterating a snapshot
against a (possibly later) shard state: the captured prefix of the search
index, restricted to the entries live as of the snapshot, decoding each
referenced record. -/
def snapshot_items (s : shard) (snap : shard_snapshot) :
    List (List Nat × List (List Nat) × Nat) :=
  (s.search_index.take snap.limit_search).filterMap fun e =>
    if snapshot_live snap e then
      match s.data e.data_offset with
      | some r => some (r.key, r.values, r.version)
      | none => none
    else none

/-- One copied record during `copy_to` (spec section 4.5): write the
record at the destination's data cursor, append a live search-index entry,
and install a hash-table slot found by the unresolving probe. -/
def copy_record (P : params) (d : shard) (ph sh : Nat) (r : record) : shard :=
  let new_offset := d.data_offset
  { hash_table :=
      match find_empty_bucket P d.hash_table ph P.HASH_TABLE_ENTRIES 0 with
      | some b => Function.update d.hash_table b ⟨ph, new_offset⟩
      | none => d.hash_table
    search_index := d.search_index ++ [⟨ph, sh, new_offset, 0⟩]
    data := Function.update d.data new_offset (some r)
    data_offset := d.data_offset + data_size r.key r.values }

/-- The iteration of `copy_to` over the snapshotted search index. -/
def copy_loop (P : params) (src_data : Nat → Option record)
    (snap : shard_snapshot) (c : coordinate) :
    List search_entry → shard → shard
  | [], d => d
  | e :: rest, d =>
    copy_loop P src_data snap c rest
      (if snapshot_live snap e then
        match src_data e.data_offset with
        | some r =>
          if c e.primary_hash e.secondary_hash r.key r.values then
            copy_record P d e.primary_hash e.secondary_hash r
          else d
        | none => d
      else d)

/-- Modelled from the spec: `shard::copy_to(c, s)` (spec section 4.5 and
the contract comment in `shard.h`: "completely erasing all the data in the
other shard").  The destination's previous contents are discarded, a
snapshot of the source is taken, and every live-as-of-snapshot entry whose
record satisfies the coordinate is copied into the freshly erased
destination. -/
def copy_to (P : params) (src : shard) (c : coordinate) (_dst : shard) : shard :=
  let snap := make_snapshot src
  copy_loop P src.data snap c (src.search_index.take snap.limit_search) (create P)

/-- One invocation of the shard API, with the shard as the receiver
(`this`): `get/stale_space/used_space/async/sync/make_snapshot` and
`copy_to` (where the receiver is the source) do not change the receiver's
state; `put` and `del` do. -/
inductive op where
  | get (ph : Nat) (key : List Nat)
  | put (ph sh : Nat) (key : List Nat) (value : List (List Nat)) (version : Nat)
  | del (ph : Nat) (key : List Nat)
  | stale_space
  | used_space
  | async
  | sync
  | make_snapshot
  | copy_to (c : coordinate) (dst : shard)

/-- The state change of one operation on the shard. -/
def step (P : params) (s : shard) : op → shard
  | op.put ph sh key value version => (put P s ph sh key value version).2
  | op.del ph key => (del P s ph key).2
  | _ => s

/-- Run a sequence of operations against the shard. -/
def run (P : params) (s : shard) : List op → shard
  | [] => s
  | o :: os => run P (step P s o) os

/-- The state invariant of every reachable shard (preserved by every
operation): the data cursor never falls below its initial value `8`;
records sit at offsets in `[8, data_offset)`; every search-index entry
references a written record; every non-zero invalidation offset is the
offset of an already-written superseding record or tombstone, hence below
the cursor; and every hash-table slot that is neither empty nor dead
references a written record. -/
structure Inv (P : params) (s : shard) : Prop where
  cursor_min : 8 ≤ s.data_offset
  data_dom : ∀ o r, s.data o = some r → 8 ≤ o ∧ o < s.data_offset
  si_data : ∀ e ∈ s.search_index, ∃ r, s.data e.data_offset = some r
  si_inval : ∀ e ∈ s.search_index,
    e.invalidation_offset ≠ 0 → e.invalidation_offset < s.data_offset
  ht_data : ∀ b, 2 ≤ (s.hash_table b).hash →
    ∃ r, s.data (s.hash_table b).offset = some r

/-- The hash-table probing invariant, maintained as long as the stored
primary hashes avoid the sentinel values `0` (empty) and `1` (dead):
every live slot is reachable from its home bucket without crossing an
empty slot, and no two live slots reference records with the same primary
hash and the same key. -/
structure ProbeInv (P : params) (s : shard) : Prop where
  lp : ∀ b, 2 ≤ (s.hash_table b).hash →
    ∀ j, j < posOf P (s.hash_table b).hash b →
      (s.hash_table (bucketAt P (s.hash_table b).hash j)).hash ≠ 0
  uniq : ∀ b₁ b₂, 2 ≤ (s.hash_table b₁).hash → 2 ≤ (s.hash_table b₂).hash →
    (s.hash_table b₁).hash = (s.hash_table b₂).hash →
    keyAt s.data (s.hash_table b₁).offset = keyAt s.data (s.hash_table b₂).offset →
    b₁ = b₂
  ht_bound : ∀ b, P.HASH_TABLE_ENTRIES ≤ b → s.hash_table b = ⟨0, 0⟩

/-- A PUT request as issued by the layer above the shard: the primary hash
is produced from the key by the hash-function layer. -/
structure put_req where
  sh : Nat
  key : List Nat
  value : List (List Nat)
  version : Nat

/-- Run a sequence of PUTs whose primary hashes are supplied by the
hash-function layer `h`. -/
def run_puts (P : params) (h : List Nat → Nat) : shard → List put_req → shard
  | s, [] => s
  | s, r :: rs => run_puts P h (put P s (h r.key) r.sh r.key r.value r.version).2 rs

/-- Whether every PUT of the sequence returns `SUCCESS`. -/
def all_success (P : params) (h : List Nat → Nat) : shard → List put_req → Bool
  | _, [] => true
  | s, r :: rs =>
    let pr := put P s (h r.key) r.sh r.key r.value r.version
    pr.1 == returncode.SUCCESS && all_success P h pr.2 rs

/-- The value list and version of the most recent request for a key in a
PUT sequence. -/
def last_write : List put_req → List Nat → Option (List (List Nat) × Nat)
  | [], _ => none
  | r :: rs, k =>
    match last_write rs k with
    | some x => some x
    | none => if r.key = k then some (r.value, r.version) else none

/-- The live records of a shard that satisfy a coordinate, in search-index
order, together with their hashes (spec invariant 6: the set `copy_to`
must transfer). -/
def live_matching (s : shard) (c : coordinate) : List (Nat × Nat × record) :=
  s.search_index.filterMap fun e =>
    if e.invalidation_offset = 0 then
      match s.data e.data_offset with
      | some r =>
        if c e.primary_hash e.secondary_hash r.key r.values then
          some (e.primary_hash, e.secondary_hash, r)
        else none
      | none => none
    else none

/-- The records a shard contains, in search-index order: each search-index
entry paired with the record stored at its data offset. -/
def stored_records (s : shard) : List (Nat × Nat × Option record) :=
  s.search_index.map fun e =>
    (e.primary_hash, e.secondary_hash, s.data e.data_offset)

/-- A small concrete parameter choice used by the witnesses: 4 hash-table
slots, 4 search-index slots, a 200-byte data region. -/
def Pw : params := ⟨4, 4, 200⟩

/-- A two-slot parameter choice used by the counterexamples. -/
def Pc : params := ⟨2, 8, 1000⟩

/-- A concrete shard over `Pc` whose hash table is completely non-empty
(one live slot, one dead slot): two PUTs fill both slots, a DEL kills the
second. -/
def sc6 : shard :=
  (del Pc (put Pc (put Pc (create Pc) 2 0 [1] [[]] 1).2 3 0 [2] [[]] 1).2
    3 [2]).2

/-- A concrete shard over `Pw` holding one record, used by witnesses. -/
def sw1 : shard := (put Pw (create Pw) 2 3 [1, 2] [[7], [8]] 5).2

/-! ### Arithmetic facts about record sizes and probe positions -/

theorem data_size_ge (key : List Nat) (value : List (List Nat)) :
    16 ≤ data_size key value := by
  unfold data_size; omega

theorem bucketAt_lt (P : params) (hP : Sane P) (ph i : Nat) :
    bucketAt P ph i < P.HASH_TABLE_ENTRIES :=
  Nat.mod_lt _ hP

theorem bucketAt_inj (P : params) (_hP : Sane P) {ph i j : Nat}
    (hi : i < P.HASH_TABLE_ENTRIES) (hj : j < P.HASH_TABLE_ENTRIES)
    (h : bucketAt P ph i = bucketAt P ph j) : i = j := by
  have h' : Nat.ModEq P.HASH_TABLE_ENTRIES
      (ph % P.HASH_TABLE_ENTRIES + i) (ph % P.HASH_TABLE_ENTRIES + j) := by
    unfold bucketAt at h
    simpa [Nat.ModEq, Nat.mod_add_mod] using h
  have h'' := Nat.ModEq.add_left_cancel' _ h'
  have hij : i % P.HASH_TABLE_ENTRIES = j % P.HASH_TABLE_ENTRIES := h''
  rwa [Nat.mod_eq_of_lt hi, Nat.mod_eq_of_lt hj] at hij

theorem posOf_lt (P : params) (hP : Sane P) (ph b : Nat) :
    posOf P ph b < P.HASH_TABLE_ENTRIES :=
  Nat.mod_lt _ hP

theorem bucketAt_posOf (P : params) (hP : Sane P) (ph : Nat) {b : Nat}
    (hb : b < P.HASH_TABLE_ENTRIES) : bucketAt P ph (posOf P ph b) = b := by
  unfold bucketAt posOf
  have hτ : ph % P.HASH_TABLE_ENTRIES < P.HASH_TABLE_ENTRIES := Nat.mod_lt _ hP
  have hle : ph % P.HASH_TABLE_ENTRIES ≤ b + P.HASH_TABLE_ENTRIES := by omega
  calc (ph % P.HASH_TABLE_ENTRIES +
        (b + P.HASH_TABLE_ENTRIES - ph % P.HASH_TABLE_ENTRIES) %
          P.HASH_TABLE_ENTRIES) % P.HASH_TABLE_ENTRIES
      = (ph % P.HASH_TABLE_ENTRIES +
        (b + P.HASH_TABLE_ENTRIES - ph % P.HASH_TABLE_ENTRIES)) %
          P.HASH_TABLE_ENTRIES := by
        rw [Nat.add_mod_mod]
    _ = (b + P.HASH_TABLE_ENTRIES) % P.HASH_TABLE_ENTRIES := by
        rw [Nat.add_sub_cancel' hle]
    _ = b % P.HASH_TABLE_ENTRIES := Nat.add_mod_right b _
    _ = b := Nat.mod_eq_of_lt hb

theorem posOf_bucketAt (P : params) (hP : Sane P) (ph : Nat) {p : Nat}
    (hp : p < P.HASH_TABLE_ENTRIES) : posOf P ph (bucketAt P ph p) = p :=
  bucketAt_inj P hP (posOf_lt P hP ph _) hp
    (bucketAt_posOf P hP ph (bucketAt_lt P hP ph p))

/-! ### Characterisation of the resolving probe -/

theorem find_bucket_loop_true (P : params) (s : shard) (ph : Nat)
    (key : List Nat) :
    ∀ fuel i reusable b off,
      fuel + i = P.HASH_TABLE_ENTRIES →
      find_bucket_loop P s ph key fuel i reusable = (b, off, true) →
      ∃ p, i ≤ p ∧ p < P.HASH_TABLE_ENTRIES ∧ b = bucketAt P ph p ∧
        slot_matches s ph key b ∧ off = (s.hash_table b).offset ∧
        ∀ q, i ≤ q → q < p →
          (s.hash_table (bucketAt P ph q)).hash ≠ 0 ∧
            ¬ slot_matches s ph key (bucketAt P ph q) := by
  intro fuel
  induction fuel with
  | zero =>
    intro i reusable b off _ hres
    unfold find_bucket_loop at hres
    cases reusable <;> simp at hres
  | succ fuel ih =>
    intro i reusable b off hn hres
    unfold find_bucket_loop at hres
    by_cases h0 : (s.hash_table (bucketAt P ph i)).hash = 0
    · simp [h0] at hres
    · by_cases h1 : (s.hash_table (bucketAt P ph i)).hash = 1
      · rw [if_neg h0, if_pos h1] at hres
        obtain ⟨p, hip, hpn, hb, hm, hoff, hpre⟩ :=
          ih (i + 1) _ b off (by omega) hres
        refine ⟨p, by omega, hpn, hb, hm, hoff, fun q hq hqp => ?_⟩
        rcases Nat.eq_or_lt_of_le hq with hq' | hq'
        · subst hq'
          exact ⟨h0, fun hc => hc.2.1 h1⟩
        · exact hpre q hq' hqp
      · by_cases hlm : live_match s ph key (bucketAt P ph i)
        · rw [if_neg h0, if_neg h1, if_pos hlm] at hres
          have hb : bucketAt P ph i = b := congrArg Prod.fst hres
          have hoff : (s.hash_table (bucketAt P ph i)).offset = off :=
            congrArg (fun x => x.2.1) hres
          refine ⟨i, le_refl i, by omega, hb.symm, ?_, ?_, fun q hq hqp => by omega⟩
          · rw [← hb]; exact ⟨h0, h1, hlm⟩
          · rw [← hb]; exact hoff.symm
        · rw [if_neg h0, if_neg h1, if_neg hlm] at hres
          obtain ⟨p, hip, hpn, hb, hm, hoff, hpre⟩ :=
            ih (i + 1) _ b off (by omega) hres
          refine ⟨p, by omega, hpn, hb, hm, hoff, fun q hq hqp => ?_⟩
          rcases Nat.eq_or_lt_of_le hq with hq' | hq'
          · subst hq'
            exact ⟨h0, fun hc => hlm hc.2.2⟩
          · exact hpre q hq' hqp

theorem find_bucket_loop_false (P : params) (s : shard) (ph : Nat)
    (key : List Nat) :
    ∀ fuel i reusable b off,
      fuel + i = P.HASH_TABLE_ENTRIES →
      (∀ q, q < i → (s.hash_table (bucketAt P ph q)).hash ≠ 0 ∧
        ¬ slot_matches s ph key (bucketAt P ph q)) →
      (match reusable with
       | none => ∀ q, q < i → (s.hash_table (bucketAt P ph q)).hash ≠ 1
       | some d => ∃ p, p < i ∧ d = bucketAt P ph p ∧
           (s.hash_table (bucketAt P ph p)).hash = 1 ∧
           ∀ q, q < p → (s.hash_table (bucketAt P ph q)).hash ≠ 1) →
      find_bucket_loop P s ph key fuel i reusable = (b, off, false) →
      off = 0 ∧
      ∃ stop, stop ≤ P.HASH_TABLE_ENTRIES ∧
        (∀ q, q < stop → (s.hash_table (bucketAt P ph q)).hash ≠ 0 ∧
          ¬ slot_matches s ph key (bucketAt P ph q)) ∧
        (stop = P.HASH_TABLE_ENTRIES ∨
          (stop < P.HASH_TABLE_ENTRIES ∧
            (s.hash_table (bucketAt P ph stop)).hash = 0)) ∧
        ((b = P.HASH_TABLE_ENTRIES ∧ stop = P.HASH_TABLE_ENTRIES ∧
            ∀ q, q < P.HASH_TABLE_ENTRIES →
              (s.hash_table (bucketAt P ph q)).hash ≠ 1) ∨
          (∃ pb, pb ≤ stop ∧ pb < P.HASH_TABLE_ENTRIES ∧ b = bucketAt P ph pb ∧
            ((s.hash_table b).hash = 0 ∨ (s.hash_table b).hash = 1) ∧
            ∀ q, q < pb → (s.hash_table (bucketAt P ph q)).hash ≠ 0 ∧
              (s.hash_table (bucketAt P ph q)).hash ≠ 1)) := by
  intro fuel
  induction fuel with
  | zero =>
    intro i reusable b off hn H1 H2 hres
    unfold find_bucket_loop at hres
    cases reusable with
    | none =>
      have hb : P.HASH_TABLE_ENTRIES = b := congrArg Prod.fst hres
      have hoff : (0 : Nat) = off := congrArg (fun x => x.2.1) hres
      refine ⟨hoff.symm, P.HASH_TABLE_ENTRIES, le_refl _, ?_, Or.inl rfl, ?_⟩
      · intro q hq; exact H1 q (by omega)
      · exact Or.inl ⟨hb.symm, rfl, fun q hq => H2 q (by omega)⟩
    | some d =>
      have hb : d = b := congrArg Prod.fst hres
      have hoff : (0 : Nat) = off := congrArg (fun x => x.2.1) hres
      obtain ⟨p, hpi, hd, hdead, hnd⟩ := H2
      refine ⟨hoff.symm, P.HASH_TABLE_ENTRIES, le_refl _, ?_, Or.inl rfl, ?_⟩
      · intro q hq; exact H1 q (by omega)
      · refine Or.inr ⟨p, by omega, by omega, by rw [← hb, hd], ?_, ?_⟩
        · rw [← hb, hd]; exact Or.inr hdead
        · intro q hq; exact ⟨(H1 q (by omega)).1, hnd q hq⟩
  | succ fuel ih =>
    intro i reusable b off hn H1 H2 hres
    unfold find_bucket_loop at hres
    by_cases h0 : (s.hash_table (bucketAt P ph i)).hash = 0
    · rw [if_pos h0] at hres
      have hoff : (0 : Nat) = off := congrArg (fun x => x.2.1) hres
      refine ⟨hoff.symm, i, by omega, H1, Or.inr ⟨by omega, h0⟩, ?_⟩
      cases reusable with
      | none =>
        have hb : bucketAt P ph i = b := congrArg Prod.fst hres
        refine Or.inr ⟨i, le_refl i, by omega, hb.symm, ?_, ?_⟩
        · rw [← hb]; exact Or.inl h0
        · intro q hq; exact ⟨(H1 q hq).1, H2 q hq⟩
      | some d =>
        have hb : d = b := congrArg Prod.fst hres
        obtain ⟨p, hpi, hd, hdead, hnd⟩ := H2
        refine Or.inr ⟨p, by omega, by omega, by rw [← hb, hd], ?_, ?_⟩
        · rw [← hb, hd]; exact Or.inr hdead
        · intro q hq; exact ⟨(H1 q (by omega)).1, hnd q hq⟩
    · by_cases h1 : (s.hash_table (bucketAt P ph i)).hash = 1
      · rw [if_neg h0, if_pos h1] at hres
        refine ih (i + 1) _ b off (by omega) ?_ ?_ hres
        · intro q hq
          rcases Nat.lt_succ_iff_lt_or_eq.mp hq with hq' | hq'
          · exact H1 q hq'
          · subst hq'
            exact ⟨by rw [h1]; omega, fun hc => hc.2.1 h1⟩
        · cases reusable with
          | none =>
            refine ⟨i, by omega, rfl, h1, fun q hq => H2 q hq⟩
          | some d =>
            obtain ⟨p, hpi, hd, hdead, hnd⟩ := H2
            exact ⟨p, by omega, hd, hdead, hnd⟩
      · by_cases hlm : live_match s ph key (bucketAt P ph i)
        · rw [if_neg h0, if_neg h1, if_pos hlm] at hres
          exact absurd (congrArg (fun x => x.2.2) hres) (by simp)
        · rw [if_neg h0, if_neg h1, if_neg hlm] at hres
          refine ih (i + 1) _ b off (by omega) ?_ ?_ hres
          · intro q hq
            rcases Nat.lt_succ_iff_lt_or_eq.mp hq with hq' | hq'
            · exact H1 q hq'
            · subst hq'
              exact ⟨h0, fun hc => hlm hc.2.2⟩
          · cases reusable with
            | none =>
              intro q hq
              rcases Nat.lt_succ_iff_lt_or_eq.mp hq with hq' | hq'
              · exact H2 q hq'
              · subst hq'; exact h1
            | some d =>
              obtain ⟨p, hpi, hd, hdead, hnd⟩ := H2
              exact ⟨p, by omega, hd, hdead, hnd⟩

theorem find_bucket_loop_complete (P : params) (s : shard) (ph : Nat)
    (key : List Nat) :
    ∀ fuel i reusable p,
      fuel + i = P.HASH_TABLE_ENTRIES →
      i ≤ p → p < P.HASH_TABLE_ENTRIES →
      slot_matches s ph key (bucketAt P ph p) →
      (∀ q, i ≤ q → q < p → (s.hash_table (bucketAt P ph q)).hash ≠ 0 ∧
        ¬ slot_matches s ph key (bucketAt P ph q)) →
      find_bucket_loop P s ph key fuel i reusable =
        (bucketAt P ph p, (s.hash_table (bucketAt P ph p)).offset, true) := by
  intro fuel
  induction fuel with
  | zero =>
    intro i reusable p hn hip hpn _ _
    omega
  | succ fuel ih =>
    intro i reusable p hn hip hpn hm hpre
    unfold find_bucket_loop
    rcases Nat.eq_or_lt_of_le hip with hq' | hq'
    · subst hq'
      rw [if_neg hm.1, if_neg hm.2.1, if_pos hm.2.2]
    · obtain ⟨hq0, hqm⟩ := hpre i (le_refl i) hq'
      rw [if_neg hq0]
      by_cases h1 : (s.hash_table (bucketAt P ph i)).hash = 1
      · rw [if_pos h1]
        exact ih (i + 1) _ p (by omega) (by omega) hpn hm
          (fun q hq hqp => hpre q (by omega) hqp)
      · rw [if_neg h1]
        have hnlm : ¬ live_match s ph key (bucketAt P ph i) := fun hc =>
          hqm ⟨hq0, h1, hc⟩
        rw [if_neg hnlm]
        exact ih (i + 1) _ p (by omega) (by omega) hpn hm
          (fun q hq hqp => hpre q (by omega) hqp)

/-- If no bucket matches, the probe reports `matched = false`. -/
theorem find_bucket_nomatch (P : params) (s : shard) (ph : Nat)
    (key : List Nat)
    (h : ∀ b, b < P.HASH_TABLE_ENTRIES → ¬ slot_matches s ph key b) :
    (find_bucket P s ph key).2.2 = false := by
  by_contra hc
  have hm : (find_bucket P s ph key).2.2 = true := by
    cases h' : (find_bucket P s ph key).2.2
    · exact absurd h' hc
    · rfl
  have hres : find_bucket P s ph key =
      ((find_bucket P s ph key).1, (find_bucket P s ph key).2.1, true) := by
    rw [← hm]
  obtain ⟨p, -, hpn, hb, hmatch, -, -⟩ :=
    find_bucket_loop_true P s ph key P.HASH_TABLE_ENTRIES 0 none _ _
      (by omega) hres
  have hblt : (find_bucket P s ph key).1 < P.HASH_TABLE_ENTRIES := by
    rw [hb]
    exact bucketAt_lt P (show 0 < P.HASH_TABLE_ENTRIES by omega) ph p
  exact h _ hblt hmatch

/-! ### Shapes of the `put` and `del` results -/

theorem invalidate_length (si : List search_entry) (o ω : Nat) :
    (invalidate_search_index si o ω).length = si.length :=
  List.length_map _ _

theorem invalidate_mem {si : List search_entry} {o ω : Nat}
    {e' : search_entry} (h : e' ∈ invalidate_search_index si o ω) :
    ∃ e ∈ si, e'.primary_hash = e.primary_hash ∧
      e'.secondary_hash = e.secondary_hash ∧
      e'.data_offset = e.data_offset ∧
      (e'.invalidation_offset = e.invalidation_offset ∨
        (e.invalidation_offset = 0 ∧ e'.invalidation_offset = ω)) := by
  unfold invalidate_search_index at h
  obtain ⟨e, he, heq⟩ := List.mem_map.mp h
  by_cases hc : e.data_offset = o ∧ e.invalidation_offset = 0
  · rw [if_pos hc] at heq
    exact ⟨e, he, by rw [← heq], by rw [← heq], by rw [← heq],
      Or.inr ⟨hc.2, by rw [← heq]⟩⟩
  · rw [if_neg hc] at heq
    exact ⟨e, he, by rw [← heq], by rw [← heq], by rw [← heq],
      Or.inl (by rw [← heq])⟩

theorem put_snd_cases (P : params) (s : shard) (ph sh : Nat)
    (key : List Nat) (value : List (List Nat)) (version : Nat) :
    (put P s ph sh key value version).2 = s ∨
      (put P s ph sh key value version).2 =
        put_state P s ph sh key value version := by
  by_cases h1 : P.DATA_SIZE < s.data_offset + data_size key value
  · left; simp [put, h1]
  · by_cases h2 : s.search_index.length = P.SEARCH_INDEX_ENTRIES
    · left; simp [put, h1, h2]
    · by_cases h3 : (find_bucket P s ph key).1 = P.HASH_TABLE_ENTRIES
      · left; simp [put, h1, h2, h3]
      · right; simp [put, h1, h2, h3]

theorem put_success_iff (P : params) (s : shard) (ph sh : Nat)
    (key : List Nat) (value : List (List Nat)) (version : Nat) :
    (put P s ph sh key value version).1 = returncode.SUCCESS ↔
      ¬ P.DATA_SIZE < s.data_offset + data_size key value ∧
        s.search_index.length ≠ P.SEARCH_INDEX_ENTRIES ∧
        (find_bucket P s ph key).1 ≠ P.HASH_TABLE_ENTRIES := by
  by_cases h1 : P.DATA_SIZE < s.data_offset + data_size key value
  · simp [put, h1]
  · by_cases h2 : s.search_index.length = P.SEARCH_INDEX_ENTRIES
    · simp [put, h1, h2]
    · by_cases h3 : (find_bucket P s ph key).1 = P.HASH_TABLE_ENTRIES
      · simp [put, h1, h2, h3]
      · simp [put, h1, h2, h3]

theorem put_eq_of_success (P : params) (s : shard) (ph sh : Nat)
    (key : List Nat) (value : List (List Nat)) (version : Nat)
    (h : (put P s ph sh key value version).1 = returncode.SUCCESS) :
    (put P s ph sh key value version).2 =
      put_state P s ph sh key value version := by
  obtain ⟨h1, h2, h3⟩ := (put_success_iff P s ph sh key value version).mp h
  simp [put, h1, h2, h3]

theorem del_snd_cases (P : params) (s : shard) (ph : Nat) (key : List Nat) :
    (del P s ph key).2 = s ∨ (del P s ph key).2 = del_state P s ph key := by
  by_cases h1 : (find_bucket P s ph key).2.2
  · by_cases h2 : P.DATA_SIZE < s.data_offset + 8
    · left; simp [del, h1, h2]
    · right; simp [del, h1, h2]
  · left; simp [del, h1]

theorem del_eq_of_success (P : params) (s : shard) (ph : Nat)
    (key : List Nat) (h : (del P s ph key).1 = returncode.SUCCESS) :
    (find_bucket P s ph key).2.2 = true ∧
      ¬ P.DATA_SIZE < s.data_offset + 8 ∧
      (del P s ph key).2 = del_state P s ph key := by
  by_cases h1 : (find_bucket P s ph key).2.2
  · by_cases h2 : P.DATA_SIZE < s.data_offset + 8
    · simp [del, h1, h2] at h
    · exact ⟨h1, h2, by simp [del, h1, h2]⟩
  · simp [del, h1] at h

/-- The new-or-old description of a search-index entry of `put_state`. -/
theorem mem_si_put_state (P : params) (s : shard) (ph sh : Nat)
    (key : List Nat) (value : List (List Nat)) (version : Nat)
    {e : search_entry}
    (h : e ∈ (put_state P s ph sh key value version).search_index) :
    (∃ e₀ ∈ s.search_index, e.primary_hash = e₀.primary_hash ∧
      e.secondary_hash = e₀.secondary_hash ∧
      e.data_offset = e₀.data_offset ∧
      (e.invalidation_offset = e₀.invalidation_offset ∨
        (e₀.invalidation_offset = 0 ∧
          e.invalidation_offset = s.data_offset))) ∨
    (e.primary_hash = ph ∧ e.secondary_hash = sh ∧
      e.data_offset = s.data_offset ∧
      (e.invalidation_offset = 0 ∨ e.invalidation_offset = s.data_offset)) := by
  simp only [put_state] at h
  by_cases hm : (find_bucket P s ph key).2.2
  · rw [if_pos hm] at h
    obtain ⟨e₀, he₀, hp, hs, hd, hi⟩ := invalidate_mem h
    rcases List.mem_append.mp he₀ with h₀ | h₀
    · refine Or.inl ⟨e₀, h₀, hp, hs, hd, ?_⟩
      rcases hi with hi | hi
      · exact Or.inl hi
      · exact Or.inr hi
    · have he : e₀ = (⟨ph, sh, s.data_offset, 0⟩ : search_entry) :=
        List.mem_singleton.mp h₀
      subst he
      refine Or.inr ⟨hp, hs, hd, ?_⟩
      rcases hi with hi | hi
      · exact Or.inl hi
      · exact Or.inr hi.2
  · rw [if_neg hm] at h
    rcases List.mem_append.mp h with h₀ | h₀
    · exact Or.inl ⟨e, h₀, rfl, rfl, rfl, Or.inl rfl⟩
    · have he : e = (⟨ph, sh, s.data_offset, 0⟩ : search_entry) :=
        List.mem_singleton.mp h₀
      subst he
      exact Or.inr ⟨rfl, rfl, rfl, Or.inl rfl⟩

/-! ### The reachable-state invariant -/

theorem Inv_create (P : params) : Inv P (create P) := by
  constructor
  · exact le_refl 8
  · intro o r ho; simp [create] at ho
  · intro e he; simp [create] at he
  · intro e he; simp [create] at he
  · intro b hb; simp [create] at hb

theorem Inv_put_state (P : params) (s : shard) (ph sh : Nat)
    (key : List Nat) (value : List (List Nat)) (version : Nat)
    (hI : Inv P s) : Inv P (put_state P s ph sh key value version) := by
  have hrs := data_size_ge key value
  have hc := hI.cursor_min
  constructor
  · show 8 ≤ s.data_offset + data_size key value
    omega
  · intro o r ho
    show 8 ≤ o ∧ o < s.data_offset + data_size key value
    simp only [put_state] at ho
    by_cases h : o = s.data_offset
    · omega
    · rw [Function.update_noteq h] at ho
      have := hI.data_dom o r ho
      omega
  · intro e he
    have hdd := mem_si_put_state P s ph sh key value version he
    show ∃ r, Function.update s.data s.data_offset
      (some ⟨version, key, value⟩) e.data_offset = some r
    rcases hdd with ⟨e₀, he₀, -, -, hd, -⟩ | ⟨-, -, hd, -⟩
    · obtain ⟨r, hr⟩ := hI.si_data e₀ he₀
      have hlt := (hI.data_dom _ _ hr).2
      refine ⟨r, ?_⟩
      rw [hd, Function.update_noteq (by omega) _ _]
      exact hr
    · exact ⟨⟨version, key, value⟩, by rw [hd, Function.update_same]⟩
  · intro e he hne
    have hdd := mem_si_put_state P s ph sh key value version he
    show e.invalidation_offset < s.data_offset + data_size key value
    rcases hdd with ⟨e₀, he₀, -, -, -, hi⟩ | ⟨-, -, -, hi⟩
    · rcases hi with hi | ⟨-, hi⟩
      · have := hI.si_inval e₀ he₀ (by rw [← hi]; exact hne)
        omega
      · omega
    · rcases hi with hi | hi
      · exact absurd hi hne
      · omega
  · intro b hb
    simp only [put_state] at hb
    show ∃ r, Function.update s.data s.data_offset
      (some ⟨version, key, value⟩)
        ((Function.update s.hash_table (find_bucket P s ph key).1
          ⟨ph, s.data_offset⟩ b).offset) = some r
    by_cases h : b = (find_bucket P s ph key).1
    · subst h
      rw [Function.update_same]
      exact ⟨⟨version, key, value⟩, by
        show Function.update s.data s.data_offset
          (some ⟨version, key, value⟩) s.data_offset = _
        rw [Function.update_same]⟩
    · rw [Function.update_noteq h] at hb ⊢
      obtain ⟨r, hr⟩ := hI.ht_data b hb
      have hlt := (hI.data_dom _ _ hr).2
      exact ⟨r, by rw [Function.update_noteq (by omega)]; exact hr⟩

theorem Inv_del_state (P : params) (s : shard) (ph : Nat) (key : List Nat)
    (hI : Inv P s) : Inv P (del_state P s ph key) := by
  have hc := hI.cursor_min
  constructor
  · show 8 ≤ s.data_offset + 8
    omega
  · intro o r ho
    have := hI.data_dom o r ho
    show 8 ≤ o ∧ o < s.data_offset + 8
    omega
  · intro e he
    simp only [del_state] at he
    obtain ⟨e₀, he₀, -, -, hd, -⟩ := invalidate_mem he
    show ∃ r, s.data e.data_offset = some r
    rw [hd]
    exact hI.si_data e₀ he₀
  · intro e he hne
    simp only [del_state] at he
    obtain ⟨e₀, he₀, -, -, -, hi⟩ := invalidate_mem he
    show e.invalidation_offset < s.data_offset + 8
    rcases hi with hi | ⟨-, hi⟩
    · have := hI.si_inval e₀ he₀ (by rw [← hi]; exact hne)
      omega
    · omega
  · intro b hb
    simp only [del_state] at hb ⊢
    by_cases h : b = (find_bucket P s ph key).1
    · subst h
      rw [Function.update_same] at hb
      simp at hb
    · rw [Function.update_noteq h] at hb ⊢
      exact hI.ht_data b hb

theorem Inv_step (P : params) (s : shard) (o : op) (hI : Inv P s) :
    Inv P (step P s o) := by
  cases o with
  | put ph sh key value version =>
    show Inv P (put P s ph sh key value version).2
    rcases put_snd_cases P s ph sh key value version with h | h
    · rw [h]; exact hI
    · rw [h]; exact Inv_put_state P s ph sh key value version hI
  | del ph key =>
    show Inv P (del P s ph key).2
    rcases del_snd_cases P s ph key with h | h
    · rw [h]; exact hI
    · rw [h]; exact Inv_del_state P s ph key hI
  | get ph key => exact hI
  | stale_space => exact hI
  | used_space => exact hI
  | async => exact hI
  | sync => exact hI
  | make_snapshot => exact hI
  | copy_to c dst => exact hI

theorem Inv_run (P : params) (s : shard) (ops : List op) (hI : Inv P s) :
    Inv P (run P s ops) := by
  induction ops generalizing s with
  | nil => exact hI
  | cons o os ih => exact ih _ (Inv_step P s o hI)

/-! ### Cursor monotonicity and frame facts -/

theorem si_put_state_length (P : params) (s : shard) (ph sh : Nat)
    (key : List Nat) (value : List (List Nat)) (version : Nat) :
    (put_state P s ph sh key value version).search_index.length =
      s.search_index.length + 1 := by
  simp only [put_state]
  by_cases hm : (find_bucket P s ph key).2.2
  · rw [if_pos hm, invalidate_length, List.length_append]
    rfl
  · rw [if_neg hm, List.length_append]
    rfl

theorem step_mono (P : params) (s : shard) (o : op) (hI : Inv P s) :
    s.data_offset ≤ (step P s o).data_offset ∧
    s.search_index.length ≤ (step P s o).search_index.length ∧
    ∀ o' r, s.data o' = some r → (step P s o).data o' = some r := by
  cases o with
  | put ph sh key value version =>
    have hst : step P s (op.put ph sh key value version) =
        (put P s ph sh key value version).2 := rfl
    rcases put_snd_cases P s ph sh key value version with h | h
    · rw [hst, h]
      exact ⟨le_refl _, le_refl _, fun _ _ hr => hr⟩
    · rw [hst, h]
      refine ⟨by simp only [put_state]; omega, ?_, ?_⟩
      · rw [si_put_state_length]; omega
      · intro o' r hr
        have := hI.data_dom o' r hr
        show Function.update s.data s.data_offset
          (some ⟨version, key, value⟩) o' = some r
        rw [Function.update_noteq (by omega)]
        exact hr
  | del ph key =>
    have hst : step P s (op.del ph key) = (del P s ph key).2 := rfl
    rcases del_snd_cases P s ph key with h | h
    · rw [hst, h]
      exact ⟨le_refl _, le_refl _, fun _ _ hr => hr⟩
    · rw [hst, h]
      refine ⟨by simp only [del_state]; omega, ?_, fun _ _ hr => hr⟩
      show s.search_index.length ≤
        (invalidate_search_index s.search_index
          (find_bucket P s ph key).2.1 s.data_offset).length
      rw [invalidate_length]
  | get ph key => exact ⟨le_refl _, le_refl _, fun _ _ hr => hr⟩
  | stale_space => exact ⟨le_refl _, le_refl _, fun _ _ hr => hr⟩
  | used_space => exact ⟨le_refl _, le_refl _, fun _ _ hr => hr⟩
  | async => exact ⟨le_refl _, le_refl _, fun _ _ hr => hr⟩
  | sync => exact ⟨le_refl _, le_refl _, fun _ _ hr => hr⟩
  | make_snapshot => exact ⟨le_refl _, le_refl _, fun _ _ hr => hr⟩
  | copy_to c dst => exact ⟨le_refl _, le_refl _, fun _ _ hr => hr⟩

theorem run_mono (P : params) (s : shard) (ops : List op) (hI : Inv P s) :
    s.data_offset ≤ (run P s ops).data_offset ∧
    s.search_index.length ≤ (run P s ops).search_index.length ∧
    ∀ o r, s.data o = some r → (run P s ops).data o = some r := by
  induction ops generalizing s with
  | nil => exact ⟨le_refl _, le_refl _, fun _ _ hr => hr⟩
  | cons o os ih =>
    obtain ⟨h1, h2, h3⟩ := step_mono P s o hI
    obtain ⟨g1, g2, g3⟩ := ih (step P s o) (Inv_step P s o hI)
    exact ⟨le_trans h1 g1, le_trans h2 g2,
      fun o' r hr => g3 o' r (h3 o' r hr)⟩

/-! ### Snapshot stability under later operations -/

theorem snapshot_item_fun_congr (dat dat' : Nat → Option record)
    (snap : shard_snapshot) (e e' : search_entry)
    (hdo : e'.data_offset = e.data_offset)
    (hdat : dat' e.data_offset = dat e.data_offset)
    (hlive : snapshot_live snap e' = snapshot_live snap e) :
    (if snapshot_live snap e' then
      match dat' e'.data_offset with
      | some r => some (r.key, r.values, r.version)
      | none => none
    else none) =
    (if snapshot_live snap e then
      match dat e.data_offset with
      | some r => some (r.key, r.values, r.version)
      | none => none
    else none) := by
  rw [hdo, hdat, hlive]

theorem step_items (P : params) (s : shard) (o : op) (snap : shard_snapshot)
    (hI : Inv P s) (hd : snap.limit_data ≤ s.data_offset)
    (hs : snap.limit_search ≤ s.search_index.length) :
    snapshot_items (step P s o) snap = snapshot_items s snap := by
  have hcur := hI.cursor_min
  cases o with
  | put ph sh key value version =>
    have hst : step P s (op.put ph sh key value version) =
        (put P s ph sh key value version).2 := rfl
    rcases put_snd_cases P s ph sh key value version with h | h
    · rw [hst, h]
    · rw [hst, h]
      unfold snapshot_items
      by_cases hm : (find_bucket P s ph key).2.2
      · have h1 : (put_state P s ph sh key value version).search_index =
            invalidate_search_index
              (s.search_index ++ [⟨ph, sh, s.data_offset, 0⟩])
              (find_bucket P s ph key).2.1 s.data_offset := by
          simp only [put_state, if_pos hm]
        rw [h1]
        unfold invalidate_search_index
        rw [← List.map_take, List.take_append_of_le_length hs,
          List.filterMap_map]
        apply List.filterMap_congr
        intro e he
        have hes : e ∈ s.search_index := List.take_subset _ _ he
        obtain ⟨r, hr⟩ := hI.si_data e hes
        have hlt := (hI.data_dom _ _ hr).2
        by_cases hc : e.data_offset = (find_bucket P s ph key).2.1 ∧
            e.invalidation_offset = 0
        · simp only [Function.comp_apply, if_pos hc]
          refine snapshot_item_fun_congr _ _ _ _ _ rfl ?_ ?_
          · show Function.update s.data s.data_offset
              (some ⟨version, key, value⟩) e.data_offset = s.data e.data_offset
            rw [Function.update_noteq (by omega)]
          · show snapshot_live snap
              { e with invalidation_offset := s.data_offset } =
              snapshot_live snap e
            simp only [snapshot_live, hc.2]
            have hz : (s.data_offset == 0) = false := by
              simp; omega
            have hz2 : decide (snap.limit_data ≤ s.data_offset) = true := by
              simp; omega
            simp [hz, hz2]
        · simp only [Function.comp_apply, if_neg hc]
          refine snapshot_item_fun_congr _ _ _ _ _ rfl ?_ rfl
          show Function.update s.data s.data_offset
            (some ⟨version, key, value⟩) e.data_offset = s.data e.data_offset
          rw [Function.update_noteq (by omega)]
      · have h1 : (put_state P s ph sh key value version).search_index =
            s.search_index ++ [⟨ph, sh, s.data_offset, 0⟩] := by
          simp only [put_state, if_neg hm]
        rw [h1, List.take_append_of_le_length hs]
        apply List.filterMap_congr
        intro e he
        have hes : e ∈ s.search_index := List.take_subset _ _ he
        obtain ⟨r, hr⟩ := hI.si_data e hes
        have hlt := (hI.data_dom _ _ hr).2
        refine snapshot_item_fun_congr _ _ _ _ _ rfl ?_ rfl
        show Function.update s.data s.data_offset
          (some ⟨version, key, value⟩) e.data_offset = s.data e.data_offset
        rw [Function.update_noteq (by omega)]
  | del ph key =>
    have hst : step P s (op.del ph key) = (del P s ph key).2 := rfl
    rcases del_snd_cases P s ph key with h | h
    · rw [hst, h]
    · rw [hst, h]
      unfold snapshot_items del_state
      unfold invalidate_search_index
      rw [← List.map_take, List.filterMap_map]
      apply List.filterMap_congr
      intro e he
      have hes : e ∈ s.search_index := List.take_subset _ _ he
      by_cases hc : e.data_offset = (find_bucket P s ph key).2.1 ∧
          e.invalidation_offset = 0
      · simp only [Function.comp_apply, if_pos hc]
        refine snapshot_item_fun_congr _ _ _ _ _ rfl rfl ?_
        show snapshot_live snap
          { e with invalidation_offset := s.data_offset } =
          snapshot_live snap e
        simp only [snapshot_live, hc.2]
        have hz : (s.data_offset == 0) = false := by
          simp; omega
        have hz2 : decide (snap.limit_data ≤ s.data_offset) = true := by
          simp; omega
        simp [hz, hz2]
      · simp only [Function.comp_apply, if_neg hc]
  | get ph key => rfl
  | stale_space => rfl
  | used_space => rfl
  | async => rfl
  | sync => rfl
  | make_snapshot => rfl
  | copy_to c dst => rfl

theorem step_livemap (P : params) (s : shard) (o : op)
    (snap : shard_snapshot) (hI : Inv P s)
    (hd : snap.limit_data ≤ s.data_offset)
    (hs : snap.limit_search ≤ s.search_index.length) :
    ((step P s o).search_index.take snap.limit_search).map
        (snapshot_live snap) =
      (s.search_index.take snap.limit_search).map (snapshot_live snap) := by
  have hcur := hI.cursor_min
  cases o with
  | put ph sh key value version =>
    have hst : step P s (op.put ph sh key value version) =
        (put P s ph sh key value version).2 := rfl
    rcases put_snd_cases P s ph sh key value version with h | h
    · rw [hst, h]
    · rw [hst, h]
      by_cases hm : (find_bucket P s ph key).2.2
      · have h1 : (put_state P s ph sh key value version).search_index =
            invalidate_search_index
              (s.search_index ++ [⟨ph, sh, s.data_offset, 0⟩])
              (find_bucket P s ph key).2.1 s.data_offset := by
          simp only [put_state, if_pos hm]
        rw [h1]
        unfold invalidate_search_index
        rw [← List.map_take, List.take_append_of_le_length hs, List.map_map]
        apply List.map_congr_left
        intro e he
        by_cases hc : e.data_offset = (find_bucket P s ph key).2.1 ∧
            e.invalidation_offset = 0
        · simp only [Function.comp_apply, if_pos hc]
          show snapshot_live snap
            { e with invalidation_offset := s.data_offset } =
            snapshot_live snap e
          simp only [snapshot_live, hc.2]
          have hz : (s.data_offset == 0) = false := by
            simp; omega
          have hz2 : decide (snap.limit_data ≤ s.data_offset) = true := by
            simp; omega
          simp [hz, hz2]
        · simp only [Function.comp_apply, if_neg hc]
      · have h1 : (put_state P s ph sh key value version).search_index =
            s.search_index ++ [⟨ph, sh, s.data_offset, 0⟩] := by
          simp only [put_state, if_neg hm]
        rw [h1, List.take_append_of_le_length hs]
  | del ph key =>
    have hst : step P s (op.del ph key) = (del P s ph key).2 := rfl
    rcases del_snd_cases P s ph key with h | h
    · rw [hst, h]
    · rw [hst, h]
      unfold del_state invalidate_search_index
      rw [← List.map_take, List.map_map]
      apply List.map_congr_left
      intro e he
      by_cases hc : e.data_offset = (find_bucket P s ph key).2.1 ∧
          e.invalidation_offset = 0
      · simp only [Function.comp_apply, if_pos hc]
        show snapshot_live snap
          { e with invalidation_offset := s.data_offset } =
          snapshot_live snap e
        simp only [snapshot_live, hc.2]
        have hz : (s.data_offset == 0) = false := by
          simp; omega
        have hz2 : decide (snap.limit_data ≤ s.data_offset) = true := by
          simp; omega
        simp [hz, hz2]
      · simp only [Function.comp_apply, if_neg hc]
  | get ph key => rfl
  | stale_space => rfl
  | used_space => rfl
  | async => rfl
  | sync => rfl
  | make_snapshot => rfl
  | copy_to c dst => rfl

theorem run_items (P : params) (s : shard) (ops : List op)
    (snap : shard_snapshot) (hI : Inv P s)
    (hd : snap.limit_data ≤ s.data_offset)
    (hs : snap.limit_search ≤ s.search_index.length) :
    snapshot_items (run P s ops) snap = snapshot_items s snap := by
  induction ops generalizing s with
  | nil => rfl
  | cons o os ih =>
    obtain ⟨h1, h2, -⟩ := step_mono P s o hI
    calc snapshot_items (run P (step P s o) os) snap
        = snapshot_items (step P s o) snap :=
          ih _ (Inv_step P s o hI) (le_trans hd h1) (le_trans hs h2)
      _ = snapshot_items s snap := step_items P s o snap hI hd hs

theorem run_livemap (P : params) (s : shard) (ops : List op)
    (snap : shard_snapshot) (hI : Inv P s)
    (hd : snap.limit_data ≤ s.data_offset)
    (hs : snap.limit_search ≤ s.search_index.length) :
    ((run P s ops).search_index.take snap.limit_search).map
        (snapshot_live snap) =
      (s.search_index.take snap.limit_search).map (snapshot_live snap) := by
  induction ops generalizing s with
  | nil => rfl
  | cons o os ih =>
    obtain ⟨h1, h2, -⟩ := step_mono P s o hI
    calc ((run P (step P s o) os).search_index.take snap.limit_search).map
          (snapshot_live snap)
        = ((step P s o).search_index.take snap.limit_search).map
            (snapshot_live snap) :=
          ih _ (Inv_step P s o hI) (le_trans hd h1) (le_trans hs h2)
      _ = (s.search_index.take snap.limit_search).map (snapshot_live snap) :=
          step_livemap P s o snap hI hd hs

/-! ### Claims C2, C6, C8 and C9 -/

/-- Claim C2: `put` returns `DATAFULL` exactly when
`data_offset_ + record_size > DATA_SIZE` (checked first), `SEARCHFULL`
exactly when `search_offset_ == SEARCH_INDEX_ENTRIES` (checked second),
`HASHFULL` exactly when the resolving probe exhausts the table (checked
third), and every `put` that returns a failure code leaves the shard
state, in particular both cursors, unchanged. -/
theorem C2_put_error_cases (P : params) (s : shard) (ph sh : Nat)
    (key : List Nat) (value : List (List Nat)) (version : Nat) :
    ((put P s ph sh key value version).1 = returncode.DATAFULL ↔
      P.DATA_SIZE < s.data_offset + data_size key value) ∧
    ((put P s ph sh key value version).1 = returncode.SEARCHFULL ↔
      ¬ P.DATA_SIZE < s.data_offset + data_size key value ∧
        s.search_index.length = P.SEARCH_INDEX_ENTRIES) ∧
    ((put P s ph sh key value version).1 = returncode.HASHFULL ↔
      ¬ P.DATA_SIZE < s.data_offset + data_size key value ∧
        s.search_index.length ≠ P.SEARCH_INDEX_ENTRIES ∧
        (find_bucket P s ph key).1 = P.HASH_TABLE_ENTRIES) ∧
    ((put P s ph sh key value version).1 ≠ returncode.SUCCESS →
      (put P s ph sh key value version).2 = s) := by
  by_cases h1 : P.DATA_SIZE < s.data_offset + data_size key value
  · simp [put, h1]
  · by_cases h2 : s.search_index.length = P.SEARCH_INDEX_ENTRIES
    · simp [put, h1, h2]
    · by_cases h3 : (find_bucket P s ph key).1 = P.HASH_TABLE_ENTRIES
      · simp [put, h1, h2, h3]
      · simp [put, h1, h2, h3]

/-- Witness for C2: with a zero-byte data region every PUT fails
`DATAFULL` and leaves the fresh shard untouched. -/
theorem C2_put_error_cases_witness :
    (put ⟨4, 4, 0⟩ (create ⟨4, 4, 0⟩) 2 3 [1] [[7]] 1).1 =
        returncode.DATAFULL ∧
      (put ⟨4, 4, 0⟩ (create ⟨4, 4, 0⟩) 2 3 [1] [[7]] 1).2 =
        create ⟨4, 4, 0⟩ := by
  have h := C2_put_error_cases ⟨4, 4, 0⟩ (create ⟨4, 4, 0⟩) 2 3 [1] [[7]] 1
  have hfull := h.1.mpr (by decide)
  exact ⟨hfull, h.2.2.2 (by rw [hfull]; decide)⟩

/-- Claim C6 (amended): the resolving probe scans linearly from bucket
`primary_hash mod HASH_TABLE_ENTRIES` with wraparound; it reports a match
at the first live slot with the same primary hash and byte-equal key, with
no empty slot and no match before it; a `matched = false` result carries
offset `0`; an unmatched entry below `HASH_TABLE_ENTRIES` is the first
dead-or-empty slot of the probe sequence, with no empty, dead or matching
slot before it; and the table-full sentinel `HASH_TABLE_ENTRIES` is
reported only when every slot of the table is live and non-matching (no
empty slot, no dead slot and no match anywhere — not merely no empty slot
and no match, as a full scan that passed a dead slot reports that dead
slot for reuse instead). -/
theorem C6_find_bucket_characterisation (P : params) (s : shard) (ph : Nat)
    (key : List Nat) :
    ((find_bucket P s ph key).2.2 = true →
      ∃ p, p < P.HASH_TABLE_ENTRIES ∧
        (find_bucket P s ph key).1 = bucketAt P ph p ∧
        slot_matches s ph key (find_bucket P s ph key).1 ∧
        (find_bucket P s ph key).2.1 =
          (s.hash_table (find_bucket P s ph key).1).offset ∧
        ∀ q, q < p → (s.hash_table (bucketAt P ph q)).hash ≠ 0 ∧
          ¬ slot_matches s ph key (bucketAt P ph q)) ∧
    ((find_bucket P s ph key).2.2 = false →
      (find_bucket P s ph key).2.1 = 0) ∧
    ((find_bucket P s ph key).2.2 = false →
      (find_bucket P s ph key).1 < P.HASH_TABLE_ENTRIES →
      ∃ pb, pb < P.HASH_TABLE_ENTRIES ∧
        (find_bucket P s ph key).1 = bucketAt P ph pb ∧
        ((s.hash_table (find_bucket P s ph key).1).hash = 0 ∨
          (s.hash_table (find_bucket P s ph key).1).hash = 1) ∧
        ∀ q, q < pb → (s.hash_table (bucketAt P ph q)).hash ≠ 0 ∧
          (s.hash_table (bucketAt P ph q)).hash ≠ 1 ∧
          ¬ slot_matches s ph key (bucketAt P ph q)) ∧
    ((find_bucket P s ph key).2.2 = false →
      (find_bucket P s ph key).1 = P.HASH_TABLE_ENTRIES →
      ∀ b, b < P.HASH_TABLE_ENTRIES → (s.hash_table b).hash ≠ 0 ∧
        (s.hash_table b).hash ≠ 1 ∧ ¬ slot_matches s ph key b) ∧
    (∀ p, p < P.HASH_TABLE_ENTRIES → slot_matches s ph key (bucketAt P ph p) →
      (∀ q, q < p → (s.hash_table (bucketAt P ph q)).hash ≠ 0 ∧
        ¬ slot_matches s ph key (bucketAt P ph q)) →
      find_bucket P s ph key =
        (bucketAt P ph p, (s.hash_table (bucketAt P ph p)).offset, true)) := by
  refine ⟨?_, ?_, ?_, ?_, ?_⟩
  · intro ht
    have hres : find_bucket_loop P s ph key P.HASH_TABLE_ENTRIES 0 none =
        ((find_bucket P s ph key).1, (find_bucket P s ph key).2.1, true) := by
      rw [← ht]; rfl
    obtain ⟨p, -, hpn, hb, hm, hoff, hpre⟩ :=
      find_bucket_loop_true P s ph key _ 0 none _ _ (by omega) hres
    exact ⟨p, hpn, hb, hm, hoff, fun q hq => hpre q (by omega) hq⟩
  · intro hf
    have hres : find_bucket_loop P s ph key P.HASH_TABLE_ENTRIES 0 none =
        ((find_bucket P s ph key).1, (find_bucket P s ph key).2.1, false) := by
      rw [← hf]; rfl
    exact (find_bucket_loop_false P s ph key _ 0 none _ _ (by omega)
      (by intro q hq; omega) (by intro q hq; omega) hres).1
  · intro hf hlt
    have hres : find_bucket_loop P s ph key P.HASH_TABLE_ENTRIES 0 none =
        ((find_bucket P s ph key).1, (find_bucket P s ph key).2.1, false) := by
      rw [← hf]; rfl
    obtain ⟨-, stop, -, hstop, -, hcase⟩ :=
      find_bucket_loop_false P s ph key _ 0 none _ _ (by omega)
        (by intro q hq; omega) (by intro q hq; omega) hres
    rcases hcase with ⟨hbn, -, -⟩ | ⟨pb, hpbs, hpbn, hb, hde, hpre⟩
    · omega
    · exact ⟨pb, hpbn, hb, hde, fun q hq =>
        ⟨(hpre q hq).1, (hpre q hq).2, (hstop q (by omega)).2⟩⟩
  · intro hf hn b hb
    have hres : find_bucket_loop P s ph key P.HASH_TABLE_ENTRIES 0 none =
        ((find_bucket P s ph key).1, (find_bucket P s ph key).2.1, false) := by
      rw [← hf]; rfl
    obtain ⟨-, stop, -, hstop, hedge, hcase⟩ :=
      find_bucket_loop_false P s ph key _ 0 none _ _ (by omega)
        (by intro q hq; omega) (by intro q hq; omega) hres
    rcases hcase with ⟨-, hsn, hnd⟩ | ⟨pb, -, hpbn, hbb, -, -⟩
    · subst hsn
      have hsur := bucketAt_posOf P (show 0 < P.HASH_TABLE_ENTRIES by omega)
        ph hb
      have h1 := hstop (posOf P ph b)
        (posOf_lt P (show 0 < P.HASH_TABLE_ENTRIES by omega) ph b)
      have h2 := hnd (posOf P ph b)
        (posOf_lt P (show 0 < P.HASH_TABLE_ENTRIES by omega) ph b)
      rw [hsur] at h1 h2
      exact ⟨h1.1, h2, h1.2⟩
    · rw [hn] at hbb
      have := bucketAt_lt P (show 0 < P.HASH_TABLE_ENTRIES by omega) ph pb
      omega
  · intro p hpn hm hpre
    exact find_bucket_loop_complete P s ph key _ 0 none p (by omega)
      (by omega) hpn hm (fun q hq hqp => hpre q hqp)

/-- Witness for C6: on a concrete two-slot table holding one live and one
dead slot, probing a fresh key resolves via the characterisation to the
dead slot. -/
theorem C6_find_bucket_characterisation_witness :
    find_bucket Pc sc6 4 [9] = (1, 0, false) := by
  have h := (C6_find_bucket_characterisation Pc sc6 4 [9]).2.2.1
    (by decide) (by decide)
  decide

/-- Claim C6 counterexample: on the same table — every slot non-empty,
no slot matching — the probe does NOT store `HASH_TABLE_ENTRIES` in the
entry as the claim demands: it returns the dead slot `1` for reuse. -/
theorem C6_counterexample :
    (∀ b, b < Pc.HASH_TABLE_ENTRIES → (sc6.hash_table b).hash ≠ 0 ∧
      ¬ slot_matches sc6 4 [9] b) ∧
    find_bucket Pc sc6 4 [9] = (1, 0, false) ∧
    (find_bucket Pc sc6 4 [9]).1 ≠ Pc.HASH_TABLE_ENTRIES := by
  decide

/-- Claim C8: `used_space` returns `floor(100 * data_offset_ / DATA_SIZE)`
computed in exact integer arithmetic. -/
theorem C8_used_space_floor (P : params) (s : shard) :
    (used_space P s : ℤ) =
      ⌊((100 * s.data_offset : Nat) : ℚ) / (P.DATA_SIZE : ℚ)⌋ := by
  have h0 : (0 : ℚ) ≤ ((100 * s.data_offset : Nat) : ℚ) / (P.DATA_SIZE : ℚ) := by
    positivity
  rw [← Int.natCast_floor_eq_floor h0, Nat.floor_div_eq_div]
  rfl

/-- Claim C3: a snapshot captured by `make_snapshot` yields the same
`(key, values, version)` sequence no matter which operations (in
particular PUTs and DELs, with arbitrary arguments) execute on the shard
afterwards; and an entry of the captured prefix is live as of the snapshot
— its invalidation offset, read at any later state, is `0` or at least
the captured data cursor — exactly when it was uninvalidated at capture
time. -/
theorem C3_snapshot_stability (P : params) (s : shard) (hI : Inv P s)
    (ops : List op) :
    snapshot_items (run P s ops) (make_snapshot s) =
      snapshot_items s (make_snapshot s) ∧
    ((run P s ops).search_index.take (make_snapshot s).limit_search).map
        (snapshot_live (make_snapshot s)) =
      s.search_index.map (fun e => e.invalidation_offset == 0) := by
  constructor
  · exact run_items P s ops (make_snapshot s) hI (le_refl _) (le_refl _)
  · rw [run_livemap P s ops (make_snapshot s) hI (le_refl _) (le_refl _)]
    show (s.search_index.take s.search_index.length).map _ = _
    rw [List.take_length]
    apply List.map_congr_left
    intro e he
    by_cases hz : e.invalidation_offset = 0
    · simp [snapshot_live, hz]
    · have hlt := hI.si_inval e he hz
      have h1 : (e.invalidation_offset == 0) = false := by simp [hz]
      have h2 : decide (s.data_offset ≤ e.invalidation_offset) = false := by
        simp; omega
      simp [snapshot_live, make_snapshot, h1, h2]

/-- Witness for C3: the snapshot of a concrete one-record shard is
unchanged by a later PUT of a second key and a DEL of the first. -/
theorem C3_snapshot_stability_witness :
    snapshot_items
        (run Pw sw1 [op.put 4 0 [9] [[1]] 2, op.del 2 [1, 2]])
        (make_snapshot sw1) =
      snapshot_items sw1 (make_snapshot sw1) ∧
    ((run Pw sw1 [op.put 4 0 [9] [[1]] 2, op.del 2 [1, 2]]).search_index.take
        (make_snapshot sw1).limit_search).map
        (snapshot_live (make_snapshot sw1)) =
      sw1.search_index.map (fun e => e.invalidation_offset == 0) :=
  C3_snapshot_stability Pw sw1
    (Inv_step Pw (create Pw) (op.put 2 3 [1, 2] [[7], [8]] 5) (Inv_create Pw))
    [op.put 4 0 [9] [[1]] 2, op.del 2 [1, 2]]

/-- Claim C7: across every sequence of shard operations, the data cursor
and the search cursor are nondecreasing, and no written record is ever
removed, shortened or moved within the data region. -/
theorem C7_monotone_cursors (P : params) (s : shard) (hI : Inv P s)
    (ops : List op) :
    s.data_offset ≤ (run P s ops).data_offset ∧
    s.search_index.length ≤ (run P s ops).search_index.length ∧
    ∀ o r, s.data o = some r → (run P s ops).data o = some r :=
  run_mono P s ops hI

/-- Witness for C7: concrete operation sequence over the one-record
shard. -/
theorem C7_monotone_cursors_witness :
    sw1.data_offset ≤
        (run Pw sw1 [op.put 4 0 [9] [[1]] 2, op.del 2 [1, 2],
          op.sync]).data_offset ∧
    sw1.search_index.length ≤
        (run Pw sw1 [op.put 4 0 [9] [[1]] 2, op.del 2 [1, 2],
          op.sync]).search_index.length ∧
    ∀ o r, sw1.data o = some r →
      (run Pw sw1 [op.put 4 0 [9] [[1]] 2, op.del 2 [1, 2],
        op.sync]).data o = some r :=
  C7_monotone_cursors Pw sw1
    (Inv_step Pw (create Pw) (op.put 2 3 [1, 2] [[7], [8]] 5) (Inv_create Pw))
    [op.put 4 0 [9] [[1]] 2, op.del 2 [1, 2], op.sync]

/-- Claim C10: the data cursor starts non-zero (at `8`) and stays
non-zero, no record is ever stored at data-region offset `0`, and every
hash-table slot holding a stored primary hash (neither the empty sentinel
`0` nor the dead sentinel `1`) carries a non-zero data-region offset — so
offset `0` remains unambiguous as the empty/dead marker. -/
theorem C10_offset_zero_sentinel (P : params) (ops : List op) :
    (create P).data_offset ≠ 0 ∧
    (run P (create P) ops).data_offset ≠ 0 ∧
    (run P (create P) ops).data 0 = none ∧
    ∀ b, 2 ≤ ((run P (create P) ops).hash_table b).hash →
      ((run P (create P) ops).hash_table b).offset ≠ 0 := by
  have hI := Inv_run P (create P) ops (Inv_create P)
  have hc := hI.cursor_min
  refine ⟨by simp [create], by omega, ?_, ?_⟩
  · cases hd : (run P (create P) ops).data 0 with
    | none => rfl
    | some r =>
      have := (hI.data_dom 0 r hd).1
      omega
  · intro b hb
    obtain ⟨r, hr⟩ := hI.ht_data b hb
    have := (hI.data_dom _ _ hr).1
    omega

/-! ### Fidelity of `copy_to` -/

theorem stored_records_copy_record (P : params) (d : shard) (ph sh : Nat)
    (r : record)
    (h2 : ∀ o r', d.data o = some r' → o < d.data_offset)
    (h3 : ∀ e ∈ d.search_index, ∃ r', d.data e.data_offset = some r') :
    stored_records (copy_record P d ph sh r) =
      stored_records d ++ [(ph, sh, some r)] := by
  simp only [stored_records, copy_record, List.map_append]
  congr 1
  · apply List.map_congr_left
    intro e he
    obtain ⟨r', hr'⟩ := h3 e he
    have := h2 _ _ hr'
    rw [Function.update_noteq (by omega)]
  · simp [Function.update_same]

theorem copy_record_pres (P : params) (d : shard) (ph sh : Nat) (r : record)
    (h1 : 8 ≤ d.data_offset)
    (h2 : ∀ o r', d.data o = some r' → o < d.data_offset)
    (h3 : ∀ e ∈ d.search_index, ∃ r', d.data e.data_offset = some r')
    (h4 : ∀ e ∈ d.search_index, e.invalidation_offset = 0) :
    8 ≤ (copy_record P d ph sh r).data_offset ∧
    (∀ o r', (copy_record P d ph sh r).data o = some r' →
      o < (copy_record P d ph sh r).data_offset) ∧
    (∀ e ∈ (copy_record P d ph sh r).search_index,
      ∃ r', (copy_record P d ph sh r).data e.data_offset = some r') ∧
    (∀ e ∈ (copy_record P d ph sh r).search_index,
      e.invalidation_offset = 0) := by
  have hrs := data_size_ge r.key r.values
  refine ⟨by simp only [copy_record]; omega, ?_, ?_, ?_⟩
  · intro o r' ho
    simp only [copy_record] at ho ⊢
    by_cases h : o = d.data_offset
    · omega
    · rw [Function.update_noteq h] at ho
      have := h2 o r' ho
      omega
  · intro e he
    simp only [copy_record] at he ⊢
    rcases List.mem_append.mp he with h₀ | h₀
    · obtain ⟨r', hr'⟩ := h3 e h₀
      have := h2 _ _ hr'
      exact ⟨r', by rw [Function.update_noteq (by omega)]; exact hr'⟩
    · have he' : e = (⟨ph, sh, d.data_offset, 0⟩ : search_entry) :=
        List.mem_singleton.mp h₀
      subst he'
      exact ⟨r, by rw [Function.update_same]⟩
  · intro e he
    simp only [copy_record] at he
    rcases List.mem_append.mp he with h₀ | h₀
    · exact h4 e h₀
    · have he' : e = (⟨ph, sh, d.data_offset, 0⟩ : search_entry) :=
        List.mem_singleton.mp h₀
      subst he'
      rfl

theorem copy_loop_spec (P : params) (src_data : Nat → Option record)
    (snap : shard_snapshot) (c : coordinate) :
    ∀ (l : List search_entry) (d : shard),
      8 ≤ d.data_offset →
      (∀ o r, d.data o = some r → o < d.data_offset) →
      (∀ e ∈ d.search_index, ∃ r, d.data e.data_offset = some r) →
      (∀ e ∈ d.search_index, e.invalidation_offset = 0) →
      stored_records (copy_loop P src_data snap c l d) =
        stored_records d ++ (l.filterMap fun e =>
          if snapshot_live snap e then
            match src_data e.data_offset with
            | some r =>
              if c e.primary_hash e.secondary_hash r.key r.values then
                some (e.primary_hash, e.secondary_hash, some r)
              else none
            | none => none
          else none) ∧
      ∀ e ∈ (copy_loop P src_data snap c l d).search_index,
        e.invalidation_offset = 0 := by
  intro l
  induction l with
  | nil =>
    intro d h1 h2 h3 h4
    exact ⟨(List.append_nil _).symm, h4⟩
  | cons e rest ih =>
    intro d h1 h2 h3 h4
    cases hl : snapshot_live snap e with
    | false =>
      have hstep : copy_loop P src_data snap c (e :: rest) d =
          copy_loop P src_data snap c rest d := by
        simp only [copy_loop, hl]
        rfl
      rw [hstep]
      obtain ⟨hsr, hinv⟩ := ih d h1 h2 h3 h4
      refine ⟨?_, hinv⟩
      rw [hsr]
      congr 1
      simp [hl]
    | true =>
      cases hsrc : src_data e.data_offset with
      | none =>
        have hstep : copy_loop P src_data snap c (e :: rest) d =
            copy_loop P src_data snap c rest d := by
          simp only [copy_loop, hl, hsrc]
          rfl
        rw [hstep]
        obtain ⟨hsr, hinv⟩ := ih d h1 h2 h3 h4
        refine ⟨?_, hinv⟩
        rw [hsr]
        congr 1
        simp [hl, hsrc]
      | some r =>
        by_cases hc : c e.primary_hash e.secondary_hash r.key r.values
        · have hstep : copy_loop P src_data snap c (e :: rest) d =
              copy_loop P src_data snap c rest
                (copy_record P d e.primary_hash e.secondary_hash r) := by
            simp only [copy_loop, hl, hsrc, hc]
            rfl
          rw [hstep]
          obtain ⟨g1, g2, g3, g4⟩ :=
            copy_record_pres P d e.primary_hash e.secondary_hash r h1 h2 h3 h4
          obtain ⟨hsr, hinv⟩ := ih _ g1 g2 g3 g4
          refine ⟨?_, hinv⟩
          rw [hsr, stored_records_copy_record P d _ _ r h2 h3]
          rw [List.append_assoc]
          congr 1
          rw [List.filterMap_cons]
          simp [hl, hsrc, hc]
        · have hstep : copy_loop P src_data snap c (e :: rest) d =
              copy_loop P src_data snap c rest d := by
            simp [copy_loop, hl, hsrc, hc]
          rw [hstep]
          obtain ⟨hsr, hinv⟩ := ih d h1 h2 h3 h4
          refine ⟨?_, hinv⟩
          rw [hsr]
          congr 1
          simp [hl, hsrc, hc]

/-- Claim C4: after `copy_to(c, s')` the destination contains exactly the
live records of the source whose `(primary_hash, secondary_hash, key,
values)` satisfy the coordinate's predicate — in search-index order, each
destination entry referencing a copy of the corresponding source record —
and every search-index entry of the destination is live
(`invalidation_offset == 0`). -/
theorem C4_copy_to_fidelity (P : params) (src : shard) (c : coordinate)
    (dst : shard) (hI : Inv P src) :
    stored_records (copy_to P src c dst) =
      (live_matching src c).map (fun x => (x.1, x.2.1, some x.2.2)) ∧
    ∀ e ∈ (copy_to P src c dst).search_index, e.invalidation_offset = 0 := by
  obtain ⟨hsr, hinv⟩ := copy_loop_spec P src.data (make_snapshot src) c
    (src.search_index.take (make_snapshot src).limit_search) (create P)
    (le_refl 8) (by intro o r ho; simp [create] at ho)
    (by intro e he; simp [create] at he)
    (by intro e he; simp [create] at he)
  have hco : copy_to P src c dst =
      copy_loop P src.data (make_snapshot src) c
        (src.search_index.take (make_snapshot src).limit_search)
        (create P) := rfl
  refine ⟨?_, by rw [hco]; exact hinv⟩
  rw [hco, hsr]
  have hnil : stored_records (create P) = [] := rfl
  rw [hnil, List.nil_append]
  have htk : src.search_index.take (make_snapshot src).limit_search =
      src.search_index := List.take_length _
  rw [htk]
  unfold live_matching
  rw [List.map_filterMap]
  apply List.filterMap_congr
  intro e he
  by_cases hz : e.invalidation_offset = 0
  · have hl : snapshot_live (make_snapshot src) e = true := by
      simp [snapshot_live, hz]
    rw [hl, if_pos rfl, if_pos hz]
    cases hsrc : src.data e.data_offset with
    | none => rfl
    | some r =>
      by_cases hc : c e.primary_hash e.secondary_hash r.key r.values
      · simp [hc]
      · simp [hc]
  · have hlt := hI.si_inval e he hz
    have hl : snapshot_live (make_snapshot src) e = false := by
      have h1 : (e.invalidation_offset == 0) = false := by simp [hz]
      have h2 : decide ((make_snapshot src).limit_data ≤
          e.invalidation_offset) = false := by
        simp [make_snapshot]; omega
      simp [snapshot_live, h1, h2]
    rw [hl]
    simp [hz]

/-- Witness for C4: copying the concrete one-record shard through the
always-true coordinate transfers exactly its record, live. -/
theorem C4_copy_to_fidelity_witness :
    stored_records (copy_to Pw sw1 (fun _ _ _ _ => true) (create Pw)) =
      (live_matching sw1 (fun _ _ _ _ => true)).map
        (fun x => (x.1, x.2.1, some x.2.2)) ∧
    ∀ e ∈ (copy_to Pw sw1 (fun _ _ _ _ => true) (create Pw)).search_index,
      e.invalidation_offset = 0 :=
  C4_copy_to_fidelity Pw sw1 (fun _ _ _ _ => true) (create Pw)
    (Inv_step Pw (create Pw) (op.put 2 3 [1, 2] [[7], [8]] 5) (Inv_create Pw))

/-- Claim C9: `copy_to` completely erases the destination before copying —
the resulting destination state, and hence every GET and every snapshot
iteration against it, depends only on the source shard and the
coordinate, never on the destination's previous contents. -/
theorem C9_copy_to_erases (P : params) (src : shard) (c : coordinate)
    (d₁ d₂ : shard) :
    copy_to P src c d₁ = copy_to P src c d₂ ∧
    (∀ ph key, get P (copy_to P src c d₁) ph key =
      get P (copy_to P src c (create P)) ph key) ∧
    (∀ snap, snapshot_items (copy_to P src c d₁) snap =
      snapshot_items (copy_to P src c (create P)) snap) := by
  exact ⟨rfl, fun _ _ => rfl, fun _ => rfl⟩

/-! ### Round-trip correctness of `get` after `put` and `del` -/

theorem find_bucket_matched_spec (P : params) (s : shard) (ph : Nat)
    (key : List Nat) (hm : (find_bucket P s ph key).2.2 = true) :
    ∃ p, p < P.HASH_TABLE_ENTRIES ∧
      (find_bucket P s ph key).1 = bucketAt P ph p ∧
      slot_matches s ph key (find_bucket P s ph key).1 ∧
      (find_bucket P s ph key).2.1 =
        (s.hash_table (find_bucket P s ph key).1).offset ∧
      ∀ q, q < p → (s.hash_table (bucketAt P ph q)).hash ≠ 0 ∧
        ¬ slot_matches s ph key (bucketAt P ph q) := by
  have hres : find_bucket_loop P s ph key P.HASH_TABLE_ENTRIES 0 none =
      ((find_bucket P s ph key).1, (find_bucket P s ph key).2.1, true) := by
    rw [← hm]; rfl
  obtain ⟨p, -, hpn, hb, hmt, hoff, hpre⟩ :=
    find_bucket_loop_true P s ph key _ 0 none _ _ (by omega) hres
  exact ⟨p, hpn, hb, hmt, hoff, fun q hq => hpre q (by omega) hq⟩

theorem find_bucket_unmatched_spec (P : params) (s : shard) (ph : Nat)
    (key : List Nat) (hm : (find_bucket P s ph key).2.2 = false)
    (hlt : (find_bucket P s ph key).1 < P.HASH_TABLE_ENTRIES) :
    ∃ pb, pb < P.HASH_TABLE_ENTRIES ∧
      (find_bucket P s ph key).1 = bucketAt P ph pb ∧
      ((s.hash_table (find_bucket P s ph key).1).hash = 0 ∨
        (s.hash_table (find_bucket P s ph key).1).hash = 1) ∧
      ∀ q, q < pb → (s.hash_table (bucketAt P ph q)).hash ≠ 0 ∧
        (s.hash_table (bucketAt P ph q)).hash ≠ 1 ∧
        ¬ slot_matches s ph key (bucketAt P ph q) := by
  have hres : find_bucket_loop P s ph key P.HASH_TABLE_ENTRIES 0 none =
      ((find_bucket P s ph key).1, (find_bucket P s ph key).2.1, false) := by
    rw [← hm]; rfl
  obtain ⟨-, stop, -, hstop, -, hcase⟩ :=
    find_bucket_loop_false P s ph key _ 0 none _ _ (by omega)
      (by intro q hq; omega) (by intro q hq; omega) hres
  rcases hcase with ⟨hbn, -, -⟩ | ⟨pb, hpbs, hpbn, hb, hde, hpre⟩
  · omega
  · exact ⟨pb, hpbn, hb, hde, fun q hq =>
      ⟨(hpre q hq).1, (hpre q hq).2, (hstop q (by omega)).2⟩⟩

theorem find_bucket_lt_of_matched (P : params) (s : shard) (ph : Nat)
    (key : List Nat) (hm : (find_bucket P s ph key).2.2 = true) :
    (find_bucket P s ph key).1 < P.HASH_TABLE_ENTRIES := by
  obtain ⟨p, hpn, hb, -, -, -⟩ := find_bucket_matched_spec P s ph key hm
  rw [hb]
  exact bucketAt_lt P (show 0 < P.HASH_TABLE_ENTRIES by omega) ph p

theorem find_bucket_le (P : params) (s : shard) (ph : Nat) (key : List Nat) :
    (find_bucket P s ph key).1 ≤ P.HASH_TABLE_ENTRIES := by
  cases hm : (find_bucket P s ph key).2.2
  · by_cases hlt : (find_bucket P s ph key).1 < P.HASH_TABLE_ENTRIES
    · omega
    · have hres : find_bucket_loop P s ph key P.HASH_TABLE_ENTRIES 0 none =
          ((find_bucket P s ph key).1, (find_bucket P s ph key).2.1, false) := by
        rw [← hm]; rfl
      obtain ⟨-, stop, -, -, -, hcase⟩ :=
        find_bucket_loop_false P s ph key _ 0 none _ _ (by omega)
          (by intro q hq; omega) (by intro q hq; omega) hres
      rcases hcase with ⟨hbn, -, -⟩ | ⟨pb, -, hpbn, hb, -, -⟩
      · omega
      · rw [hb]
        have := bucketAt_lt P (show 0 < P.HASH_TABLE_ENTRIES by omega) ph pb
        omega
  · exact le_of_lt (find_bucket_lt_of_matched P s ph key hm)

/-- If the probe for `(ph, key)` reports `matched = false`, the linear
probing invariant rules out a matching slot anywhere in the table. -/
theorem no_match_of_probe_false (P : params) (s : shard) (ph : Nat)
    (key : List Nat) (hPI : ProbeInv P s)
    (hf : (find_bucket P s ph key).2.2 = false) :
    ∀ b, b < P.HASH_TABLE_ENTRIES → ¬ slot_matches s ph key b := by
  intro b hb hmt
  have hres : find_bucket_loop P s ph key P.HASH_TABLE_ENTRIES 0 none =
      ((find_bucket P s ph key).1, (find_bucket P s ph key).2.1, false) := by
    rw [← hf]; rfl
  obtain ⟨-, stop, hsle, hstop, hedge, -⟩ :=
    find_bucket_loop_false P s ph key _ 0 none _ _ (by omega)
      (by intro q hq; omega) (by intro q hq; omega) hres
  have hn : 0 < P.HASH_TABLE_ENTRIES := by omega
  have hsur : bucketAt P ph (posOf P ph b) = b := bucketAt_posOf P hn ph hb
  have hpos : posOf P ph b < P.HASH_TABLE_ENTRIES := posOf_lt P hn ph b
  rcases hedge with hsn | ⟨hslt, hse⟩
  · subst hsn
    exact (hstop (posOf P ph b) hpos).2 (by rw [hsur]; exact hmt)
  · rcases Nat.lt_trichotomy (posOf P ph b) stop with h | h | h
    · exact (hstop (posOf P ph b) h).2 (by rw [hsur]; exact hmt)
    · rw [← h, hsur] at hse
      exact hmt.1 hse
    · have h0b : (s.hash_table b).hash ≠ 0 := hmt.1
      have h1b : (s.hash_table b).hash ≠ 1 := hmt.2.1
      have hhash : (s.hash_table b).hash = ph := hmt.2.2.2.1
      have h2b : 2 ≤ (s.hash_table b).hash := by omega
      have hlp := hPI.lp b h2b stop (by rw [hhash]; exact h)
      rw [hhash] at hlp
      exact hlp hse

theorem ProbeInv_create (P : params) : ProbeInv P (create P) := by
  constructor
  · intro b hb
    simp [create] at hb
  · intro b₁ b₂ h₁ h₂
    simp [create] at h₁
  · intro b hb
    rfl

theorem put_state_hash_table_ne (P : params) (s : shard) (ph sh : Nat)
    (key : List Nat) (value : List (List Nat)) (version : Nat) {b : Nat}
    (hb : b ≠ (find_bucket P s ph key).1) :
    (put_state P s ph sh key value version).hash_table b = s.hash_table b := by
  simp only [put_state]
  rw [Function.update_noteq hb]

theorem put_state_entry_hash_table (P : params) (s : shard) (ph sh : Nat)
    (key : List Nat) (value : List (List Nat)) (version : Nat) :
    (put_state P s ph sh key value version).hash_table
        (find_bucket P s ph key).1 = ⟨ph, s.data_offset⟩ := by
  simp only [put_state]
  rw [Function.update_same]

theorem keyAt_put_state_new (P : params) (s : shard) (ph sh : Nat)
    (key : List Nat) (value : List (List Nat)) (version : Nat) :
    keyAt (put_state P s ph sh key value version).data s.data_offset =
      some key := by
  simp only [put_state, keyAt]
  rw [Function.update_same]
  rfl

theorem keyAt_put_state (P : params) (s : shard) (ph sh : Nat)
    (key : List Nat) (value : List (List Nat)) (version : Nat) (hI : Inv P s)
    {b : Nat} (h2 : 2 ≤ (s.hash_table b).hash) :
    keyAt (put_state P s ph sh key value version).data
        (s.hash_table b).offset =
      keyAt s.data (s.hash_table b).offset := by
  obtain ⟨r, hr⟩ := hI.ht_data b h2
  have hlt := (hI.data_dom _ _ hr).2
  simp only [put_state, keyAt]
  rw [Function.update_noteq (by omega)]

theorem slot_matches_put_state_ne (P : params) (s : shard) (ph sh : Nat)
    (key : List Nat) (value : List (List Nat)) (version : Nat) (hI : Inv P s)
    {b : Nat} (hb : b ≠ (find_bucket P s ph key).1) (ph' : Nat)
    (key' : List Nat) :
    slot_matches (put_state P s ph sh key value version) ph' key' b ↔
      slot_matches s ph' key' b := by
  have hht := put_state_hash_table_ne P s ph sh key value version hb
  unfold slot_matches live_match
  rw [hht]
  constructor
  · rintro ⟨h0, h1, hoff, hhash, hkey⟩
    have h2 : 2 ≤ (s.hash_table b).hash := by omega
    rw [keyAt_put_state P s ph sh key value version hI h2] at hkey
    exact ⟨h0, h1, hoff, hhash, hkey⟩
  · rintro ⟨h0, h1, hoff, hhash, hkey⟩
    have h2 : 2 ≤ (s.hash_table b).hash := by omega
    rw [← keyAt_put_state P s ph sh key value version hI h2] at hkey
    exact ⟨h0, h1, hoff, hhash, hkey⟩

theorem slot_matches_put_state_entry (P : params) (s : shard) (ph sh : Nat)
    (key : List Nat) (value : List (List Nat)) (version : Nat)
    (hI : Inv P s) (hph : 2 ≤ ph) :
    slot_matches (put_state P s ph sh key value version) ph key
      (find_bucket P s ph key).1 := by
  have hc := hI.cursor_min
  unfold slot_matches live_match
  rw [put_state_entry_hash_table]
  refine ⟨?_, ?_, ?_, rfl, ?_⟩
  · show ph ≠ 0
    omega
  · show ph ≠ 1
    omega
  · show s.data_offset ≠ 0
    omega
  · exact keyAt_put_state_new P s ph sh key value version

theorem not_slot_matches_put_state_entry (P : params) (s : shard)
    (ph sh : Nat) (key : List Nat) (value : List (List Nat)) (version : Nat)
    {ph' : Nat} {key' : List Nat} (hk : key' ≠ key) :
    ¬ slot_matches (put_state P s ph sh key value version) ph' key'
      (find_bucket P s ph key).1 := by
  intro hmt
  have h := hmt.2.2.2.2
  rw [put_state_entry_hash_table] at h
  have h2 : keyAt (put_state P s ph sh key value version).data
      s.data_offset = some key' := h
  rw [keyAt_put_state_new] at h2
  exact hk (Option.some.inj h2).symm

theorem get_of_find_bucket_true (P : params) (s : shard) (ph : Nat)
    (key : List Nat) (b off : Nat)
    (h : find_bucket P s ph key = (b, off, true)) :
    get P s ph key =
      match s.data off with
      | some r => some (r.values, r.version)
      | none => none := by
  simp only [get, h]
  rfl

theorem get_of_find_bucket_false (P : params) (s : shard) (ph : Nat)
    (key : List Nat) (h : (find_bucket P s ph key).2.2 = false) :
    get P s ph key = none := by
  simp only [get, h]
  rfl

/-- The bucket chosen by the probe, as a probe position whose strict
predecessors are all non-empty and non-matching. -/
theorem find_bucket_entry_pos (P : params) (s : shard) (ph : Nat)
    (key : List Nat)
    (h3 : (find_bucket P s ph key).1 ≠ P.HASH_TABLE_ENTRIES) :
    ∃ p, p < P.HASH_TABLE_ENTRIES ∧
      (find_bucket P s ph key).1 = bucketAt P ph p ∧
      ∀ q, q < p → (s.hash_table (bucketAt P ph q)).hash ≠ 0 ∧
        ¬ slot_matches s ph key (bucketAt P ph q) := by
  have hle := find_bucket_le P s ph key
  cases hm : (find_bucket P s ph key).2.2
  · obtain ⟨pb, hpbn, hbb, -, hpre⟩ :=
      find_bucket_unmatched_spec P s ph key hm (by omega)
    exact ⟨pb, hpbn, hbb, fun q hq => ⟨(hpre q hq).1, (hpre q hq).2.2⟩⟩
  · obtain ⟨p, hpn, hbb, -, -, hpre⟩ := find_bucket_matched_spec P s ph key hm
    exact ⟨p, hpn, hbb, hpre⟩

theorem get_put_state_same (P : params) (s : shard) (ph sh : Nat)
    (key : List Nat) (value : List (List Nat)) (version : Nat)
    (hI : Inv P s) (hph : 2 ≤ ph)
    (h3 : (find_bucket P s ph key).1 ≠ P.HASH_TABLE_ENTRIES) :
    get P (put_state P s ph sh key value version) ph key =
      some (value, version) := by
  obtain ⟨p, hpn, hb, hpre⟩ := find_bucket_entry_pos P s ph key h3
  have hn : 0 < P.HASH_TABLE_ENTRIES := by omega
  have hmatch : slot_matches (put_state P s ph sh key value version) ph key
      (bucketAt P ph p) := by
    rw [← hb]
    exact slot_matches_put_state_entry P s ph sh key value version hI hph
  have hppre : ∀ q, q < p →
      ((put_state P s ph sh key value version).hash_table
        (bucketAt P ph q)).hash ≠ 0 ∧
      ¬ slot_matches (put_state P s ph sh key value version) ph key
        (bucketAt P ph q) := by
    intro q hq
    have hne : bucketAt P ph q ≠ (find_bucket P s ph key).1 := by
      rw [hb]
      intro hcontra
      exact absurd (bucketAt_inj P hn (by omega) hpn hcontra) (by omega)
    constructor
    · rw [put_state_hash_table_ne P s ph sh key value version hne]
      exact (hpre q hq).1
    · rw [slot_matches_put_state_ne P s ph sh key value version hI hne]
      exact (hpre q hq).2
  have hcomp := find_bucket_loop_complete P
    (put_state P s ph sh key value version) ph key P.HASH_TABLE_ENTRIES 0
    none p (by omega) (Nat.zero_le p) hpn hmatch (fun q _ hqp => hppre q hqp)
  have hoff : ((put_state P s ph sh key value version).hash_table
      (bucketAt P ph p)).offset = s.data_offset := by
    rw [← hb, put_state_entry_hash_table]
  have hfb : find_bucket P (put_state P s ph sh key value version) ph key =
      (bucketAt P ph p, s.data_offset, true) := by
    rw [← hoff]
    exact hcomp
  rw [get_of_find_bucket_true P _ ph key _ _ hfb]
  have hdat : (put_state P s ph sh key value version).data s.data_offset =
      some ⟨version, key, value⟩ := by
    simp only [put_state]
    rw [Function.update_same]
  rw [hdat]

theorem get_put_state_other (P : params) (s : shard) (ph sh : Nat)
    (key : List Nat) (value : List (List Nat)) (version : Nat)
    (hI : Inv P s) (hPI : ProbeInv P s) (hph : 2 ≤ ph)
    (h3 : (find_bucket P s ph key).1 ≠ P.HASH_TABLE_ENTRIES)
    (ph' : Nat) (key' : List Nat) (hk : key' ≠ key) :
    get P (put_state P s ph sh key value version) ph' key' =
      get P s ph' key' := by
  have hentry : ¬ slot_matches (put_state P s ph sh key value version) ph'
      key' (find_bucket P s ph key).1 :=
    not_slot_matches_put_state_entry P s ph sh key value version hk
  cases hm : (find_bucket P s ph' key').2.2
  · rw [get_of_find_bucket_false P s ph' key' hm]
    apply get_of_find_bucket_false
    apply find_bucket_nomatch
    intro b hb
    by_cases hbe : b = (find_bucket P s ph key).1
    · rw [hbe]
      exact hentry
    · rw [slot_matches_put_state_ne P s ph sh key value version hI hbe]
      exact no_match_of_probe_false P s ph' key' hPI hm b hb
  · obtain ⟨p', hp'n, hb', hmt', hoff', hpre'⟩ :=
      find_bucket_matched_spec P s ph' key' hm
    have hn : 0 < P.HASH_TABLE_ENTRIES := by omega
    have hb'ne : (find_bucket P s ph' key').1 ≠ (find_bucket P s ph key).1 := by
      intro hcontra
      cases hm0 : (find_bucket P s ph key).2.2
      · have hle := find_bucket_le P s ph key
        obtain ⟨pb, -, -, hde, -⟩ :=
          find_bucket_unmatched_spec P s ph key hm0 (by omega)
        rw [hcontra] at hmt'
        rcases hde with h0 | h1
        · exact hmt'.1 h0
        · exact hmt'.2.1 h1
      · obtain ⟨-, -, -, hmt0, -, -⟩ := find_bucket_matched_spec P s ph key hm0
        rw [hcontra] at hmt'
        have h1 := hmt0.2.2.2.2
        have h2 := hmt'.2.2.2.2
        rw [h1] at h2
        exact hk (Option.some.inj h2).symm
    have hmatch' : slot_matches (put_state P s ph sh key value version) ph'
        key' (bucketAt P ph' p') := by
      rw [← hb']
      rw [slot_matches_put_state_ne P s ph sh key value version hI hb'ne]
      exact hmt'
    have hppre' : ∀ q, q < p' →
        ((put_state P s ph sh key value version).hash_table
          (bucketAt P ph' q)).hash ≠ 0 ∧
        ¬ slot_matches (put_state P s ph sh key value version) ph' key'
          (bucketAt P ph' q) := by
      intro q hq
      by_cases hbe : bucketAt P ph' q = (find_bucket P s ph key).1
      · constructor
        · rw [hbe, put_state_entry_hash_table]
          show ph ≠ 0
          omega
        · rw [hbe]
          exact hentry
      · constructor
        · rw [put_state_hash_table_ne P s ph sh key value version hbe]
          exact (hpre' q hq).1
        · rw [slot_matches_put_state_ne P s ph sh key value version hI hbe]
          exact (hpre' q hq).2
    have hcomp := find_bucket_loop_complete P
      (put_state P s ph sh key value version) ph' key' P.HASH_TABLE_ENTRIES
      0 none p' (by omega) (Nat.zero_le p') hp'n hmatch'
      (fun q _ hqp => hppre' q hqp)
    have h2s : 2 ≤ (s.hash_table (bucketAt P ph' p')).hash := by
      rw [hb'] at hmt'
      have h0 := hmt'.1
      have h1 := hmt'.2.1
      omega
    have hoffs : ((put_state P s ph sh key value version).hash_table
        (bucketAt P ph' p')).offset =
        (s.hash_table (bucketAt P ph' p')).offset := by
      rw [put_state_hash_table_ne P s ph sh key value version
        (by rw [← hb']; exact hb'ne)]
    have hfb2 : find_bucket P (put_state P s ph sh key value version) ph'
        key' = (bucketAt P ph' p',
          (s.hash_table (bucketAt P ph' p')).offset, true) := by
      rw [← hoffs]
      exact hcomp
    have hfb1 : find_bucket P s ph' key' =
        (bucketAt P ph' p', (s.hash_table (bucketAt P ph' p')).offset,
          true) := by
      have : find_bucket P s ph' key' = ((find_bucket P s ph' key').1,
          (find_bucket P s ph' key').2.1, true) := by
        rw [← hm]
      rw [this, hb']
      rw [hoff', hb']
    rw [get_of_find_bucket_true P s ph' key' _ _ hfb1,
      get_of_find_bucket_true P _ ph' key' _ _ hfb2]
    obtain ⟨r, hr⟩ := hI.ht_data _ h2s
    have hlt := (hI.data_dom _ _ hr).2
    have hdat : (put_state P s ph sh key value version).data
        (s.hash_table (bucketAt P ph' p')).offset =
        s.data (s.hash_table (bucketAt P ph' p')).offset := by
      simp only [put_state]
      rw [Function.update_noteq (by omega)]
    rw [hdat]

theorem ProbeInv_put_state (P : params) (s : shard) (ph sh : Nat)
    (key : List Nat) (value : List (List Nat)) (version : Nat)
    (hI : Inv P s) (hPI : ProbeInv P s) (hph : 2 ≤ ph)
    (h3 : (find_bucket P s ph key).1 ≠ P.HASH_TABLE_ENTRIES) :
    ProbeInv P (put_state P s ph sh key value version) := by
  have hle := find_bucket_le P s ph key
  have hent : (find_bucket P s ph key).1 < P.HASH_TABLE_ENTRIES := by omega
  have hn : 0 < P.HASH_TABLE_ENTRIES := by omega
  obtain ⟨p, hpn, hb, hpre⟩ := find_bucket_entry_pos P s ph key h3
  have hpos : posOf P ph (find_bucket P s ph key).1 = p := by
    rw [hb]
    exact posOf_bucketAt P hn ph hpn
  constructor
  · intro b hb2 j hj
    by_cases hbe : b = (find_bucket P s ph key).1
    · rw [hbe] at hj ⊢
      rw [put_state_entry_hash_table] at hj ⊢
      have hj2 : j < posOf P ph (find_bucket P s ph key).1 := hj
      have hj' : j < p := by
        rw [hpos] at hj2
        exact hj2
      show ((put_state P s ph sh key value version).hash_table
        (bucketAt P ph j)).hash ≠ 0
      have hne : bucketAt P ph j ≠ (find_bucket P s ph key).1 := by
        rw [hb]
        intro hcontra
        exact absurd (bucketAt_inj P hn (by omega) hpn hcontra) (by omega)
      rw [put_state_hash_table_ne P s ph sh key value version hne]
      exact (hpre j hj').1
    · have hht : (put_state P s ph sh key value version).hash_table b =
          s.hash_table b :=
        put_state_hash_table_ne P s ph sh key value version hbe
      rw [hht] at hj hb2 ⊢
      by_cases hbj : bucketAt P (s.hash_table b).hash j =
          (find_bucket P s ph key).1
      · rw [hbj, put_state_entry_hash_table]
        show ph ≠ 0
        omega
      · rw [put_state_hash_table_ne P s ph sh key value version hbj]
        exact hPI.lp b hb2 j hj
  · intro b₁ b₂ h₁ h₂ hh hk
    by_cases he₁ : b₁ = (find_bucket P s ph key).1 <;>
      by_cases he₂ : b₂ = (find_bucket P s ph key).1
    · rw [he₁, he₂]
    · exfalso
      rw [he₁, put_state_entry_hash_table] at h₁ hh hk
      have hht₂ : (put_state P s ph sh key value version).hash_table b₂ =
          s.hash_table b₂ :=
        put_state_hash_table_ne P s ph sh key value version he₂
      rw [hht₂] at h₂ hh hk
      have hhA : ph = (s.hash_table b₂).hash := hh
      have hkA : keyAt (put_state P s ph sh key value version).data
          s.data_offset =
          keyAt (put_state P s ph sh key value version).data
            (s.hash_table b₂).offset := hk
      have hk1 := keyAt_put_state_new P s ph sh key value version
      have hk2 := keyAt_put_state P s ph sh key value version hI h₂
      have hkey2 : keyAt s.data (s.hash_table b₂).offset = some key := by
        rw [← hk2, ← hkA]
        exact hk1
      have hoff2 : (s.hash_table b₂).offset ≠ 0 := by
        obtain ⟨r, hr⟩ := hI.ht_data b₂ h₂
        have := (hI.data_dom _ _ hr).1
        omega
      have hmt2 : slot_matches s ph key b₂ :=
        ⟨by omega, by omega, hoff2, hhA.symm, hkey2⟩
      have hb2n : b₂ < P.HASH_TABLE_ENTRIES := by
        by_contra hc
        have hz := hPI.ht_bound b₂ (by omega)
        rw [hz] at h₂
        simp at h₂
      cases hm0 : (find_bucket P s ph key).2.2
      · exact no_match_of_probe_false P s ph key hPI hm0 b₂ hb2n hmt2
      · obtain ⟨-, -, -, hmt0, -, -⟩ := find_bucket_matched_spec P s ph key hm0
        have h20 : 2 ≤ (s.hash_table (find_bucket P s ph key).1).hash := by
          have h0 := hmt0.1
          have h1 := hmt0.2.1
          omega
        have heq := hPI.uniq b₂ (find_bucket P s ph key).1 h₂ h20
          (by rw [← hhA, hmt0.2.2.2.1])
          (by rw [hkey2, hmt0.2.2.2.2])
        exact he₂ heq
    · exfalso
      rw [he₂, put_state_entry_hash_table] at h₂ hh hk
      have hht₁ : (put_state P s ph sh key value version).hash_table b₁ =
          s.hash_table b₁ :=
        put_state_hash_table_ne P s ph sh key value version he₁
      rw [hht₁] at h₁ hh hk
      have hhA : (s.hash_table b₁).hash = ph := hh
      have hkA : keyAt (put_state P s ph sh key value version).data
          (s.hash_table b₁).offset =
          keyAt (put_state P s ph sh key value version).data
            s.data_offset := hk
      have hk1 := keyAt_put_state_new P s ph sh key value version
      have hk2 := keyAt_put_state P s ph sh key value version hI h₁
      have hkey2 : keyAt s.data (s.hash_table b₁).offset = some key := by
        rw [← hk2, hkA]
        exact hk1
      have hoff2 : (s.hash_table b₁).offset ≠ 0 := by
        obtain ⟨r, hr⟩ := hI.ht_data b₁ h₁
        have := (hI.data_dom _ _ hr).1
        omega
      have hmt2 : slot_matches s ph key b₁ :=
        ⟨by omega, by omega, hoff2, hhA, hkey2⟩
      have hb1n : b₁ < P.HASH_TABLE_ENTRIES := by
        by_contra hc
        have hz := hPI.ht_bound b₁ (by omega)
        rw [hz] at h₁
        simp at h₁
      cases hm0 : (find_bucket P s ph key).2.2
      · exact no_match_of_probe_false P s ph key hPI hm0 b₁ hb1n hmt2
      · obtain ⟨-, -, -, hmt0, -, -⟩ := find_bucket_matched_spec P s ph key hm0
        have h20 : 2 ≤ (s.hash_table (find_bucket P s ph key).1).hash := by
          have h0 := hmt0.1
          have h1 := hmt0.2.1
          omega
        have heq := hPI.uniq b₁ (find_bucket P s ph key).1 h₁ h20
          (by rw [hhA, hmt0.2.2.2.1])
          (by rw [hkey2, hmt0.2.2.2.2])
        exact he₁ heq
    · have hht₁ : (put_state P s ph sh key value version).hash_table b₁ =
          s.hash_table b₁ :=
        put_state_hash_table_ne P s ph sh key value version he₁
      have hht₂ : (put_state P s ph sh key value version).hash_table b₂ =
          s.hash_table b₂ :=
        put_state_hash_table_ne P s ph sh key value version he₂
      rw [hht₁] at h₁ hh hk
      rw [hht₂] at h₂ hh hk
      rw [keyAt_put_state P s ph sh key value version hI h₁,
        keyAt_put_state P s ph sh key value version hI h₂] at hk
      exact hPI.uniq b₁ b₂ h₁ h₂ hh hk
  · intro b hbn
    have hne : b ≠ (find_bucket P s ph key).1 := by omega
    rw [put_state_hash_table_ne P s ph sh key value version hne]
    exact hPI.ht_bound b hbn

theorem del_state_hash_table_ne (P : params) (s : shard) (ph : Nat)
    (key : List Nat) {b : Nat} (hb : b ≠ (find_bucket P s ph key).1) :
    (del_state P s ph key).hash_table b = s.hash_table b := by
  simp only [del_state]
  rw [Function.update_noteq hb]

theorem del_state_entry_hash_table (P : params) (s : shard) (ph : Nat)
    (key : List Nat) :
    (del_state P s ph key).hash_table (find_bucket P s ph key).1 = ⟨1, 0⟩ := by
  simp only [del_state]
  rw [Function.update_same]

theorem del_state_data (P : params) (s : shard) (ph : Nat) (key : List Nat) :
    (del_state P s ph key).data = s.data := rfl

theorem slot_matches_del_state_ne (P : params) (s : shard) (ph : Nat)
    (key : List Nat) {b : Nat} (hb : b ≠ (find_bucket P s ph key).1)
    (ph' : Nat) (key' : List Nat) :
    slot_matches (del_state P s ph key) ph' key' b ↔
      slot_matches s ph' key' b := by
  unfold slot_matches live_match
  rw [del_state_hash_table_ne P s ph key hb, del_state_data]

theorem get_del_state (P : params) (s : shard) (ph : Nat) (key : List Nat)
    (hPI : ProbeInv P s) (hm : (find_bucket P s ph key).2.2 = true) :
    get P (del_state P s ph key) ph key = none := by
  obtain ⟨-, -, -, hmt0, -, -⟩ := find_bucket_matched_spec P s ph key hm
  have h20 : 2 ≤ (s.hash_table (find_bucket P s ph key).1).hash := by
    have h0 := hmt0.1
    have h1 := hmt0.2.1
    omega
  apply get_of_find_bucket_false
  apply find_bucket_nomatch
  intro b hb
  by_cases hbe : b = (find_bucket P s ph key).1
  · rw [hbe]
    intro hmt
    have h := hmt.2.1
    rw [del_state_entry_hash_table] at h
    exact h rfl
  · rw [slot_matches_del_state_ne P s ph key hbe]
    intro hmt
    have h2b : 2 ≤ (s.hash_table b).hash := by
      have h0 := hmt.1
      have h1 := hmt.2.1
      omega
    have heq := hPI.uniq b (find_bucket P s ph key).1 h2b h20
      (by rw [hmt.2.2.2.1, hmt0.2.2.2.1])
      (by rw [hmt.2.2.2.2, hmt0.2.2.2.2])
    exact hbe heq

theorem ProbeInv_del_state (P : params) (s : shard) (ph : Nat)
    (key : List Nat) (hPI : ProbeInv P s)
    (hm : (find_bucket P s ph key).2.2 = true) :
    ProbeInv P (del_state P s ph key) := by
  have hent := find_bucket_lt_of_matched P s ph key hm
  constructor
  · intro b hb2 j hj
    by_cases hbe : b = (find_bucket P s ph key).1
    · rw [hbe, del_state_entry_hash_table] at hb2
      have : (1 : Nat) < 2 := by omega
      have hb2' : 2 ≤ (1 : Nat) := hb2
      omega
    · have hht : (del_state P s ph key).hash_table b = s.hash_table b :=
        del_state_hash_table_ne P s ph key hbe
      rw [hht] at hj hb2 ⊢
      by_cases hbj : bucketAt P (s.hash_table b).hash j =
          (find_bucket P s ph key).1
      · rw [hbj, del_state_entry_hash_table]
        show (1 : Nat) ≠ 0
        omega
      · rw [del_state_hash_table_ne P s ph key hbj]
        exact hPI.lp b hb2 j hj
  · intro b₁ b₂ h₁ h₂ hh hk
    by_cases he₁ : b₁ = (find_bucket P s ph key).1
    · rw [he₁, del_state_entry_hash_table] at h₁
      have h₁' : 2 ≤ (1 : Nat) := h₁
      omega
    · by_cases he₂ : b₂ = (find_bucket P s ph key).1
      · rw [he₂, del_state_entry_hash_table] at h₂
        have h₂' : 2 ≤ (1 : Nat) := h₂
        omega
      · have hht₁ : (del_state P s ph key).hash_table b₁ = s.hash_table b₁ :=
          del_state_hash_table_ne P s ph key he₁
        have hht₂ : (del_state P s ph key).hash_table b₂ = s.hash_table b₂ :=
          del_state_hash_table_ne P s ph key he₂
        rw [hht₁] at h₁ hh hk
        rw [hht₂] at h₂ hh hk
        rw [del_state_data] at hk
        exact hPI.uniq b₁ b₂ h₁ h₂ hh hk
  · intro b hbn
    have hne : b ≠ (find_bucket P s ph key).1 := by omega
    rw [del_state_hash_table_ne P s ph key hne]
    exact hPI.ht_bound b hbn

theorem run_puts_spec (P : params) (h : List Nat → Nat)
    (hh : ∀ k, 2 ≤ h k) :
    ∀ (rs : List put_req) (s : shard), Inv P s → ProbeInv P s →
      all_success P h s rs = true →
      Inv P (run_puts P h s rs) ∧ ProbeInv P (run_puts P h s rs) ∧
      ∀ k, get P (run_puts P h s rs) (h k) k =
        match last_write rs k with
        | some x => some x
        | none => get P s (h k) k := by
  intro rs
  induction rs with
  | nil =>
    intro s hI hPI _
    exact ⟨hI, hPI, fun k => rfl⟩
  | cons r rs ih =>
    intro s hI hPI hok
    have hok' : ((put P s (h r.key) r.sh r.key r.value r.version).1 ==
        returncode.SUCCESS) = true ∧
        all_success P h (put P s (h r.key) r.sh r.key r.value r.version).2
          rs = true := by
      rw [← Bool.and_eq_true]
      exact hok
    have hsucc : (put P s (h r.key) r.sh r.key r.value r.version).1 =
        returncode.SUCCESS := beq_iff_eq.mp hok'.1
    have hrest := hok'.2
    obtain ⟨h1, h2, h3⟩ :=
      (put_success_iff P s (h r.key) r.sh r.key r.value r.version).mp hsucc
    have hps := put_eq_of_success P s (h r.key) r.sh r.key r.value
      r.version hsucc
    have hI1 : Inv P (put P s (h r.key) r.sh r.key r.value r.version).2 := by
      rw [hps]
      exact Inv_put_state P s (h r.key) r.sh r.key r.value r.version hI
    have hPI1 : ProbeInv P
        (put P s (h r.key) r.sh r.key r.value r.version).2 := by
      rw [hps]
      exact ProbeInv_put_state P s (h r.key) r.sh r.key r.value r.version
        hI hPI (hh r.key) h3
    obtain ⟨hIf, hPIf, hget⟩ := ih _ hI1 hPI1 hrest
    refine ⟨hIf, hPIf, fun k => ?_⟩
    have hrun : run_puts P h s (r :: rs) =
        run_puts P h (put P s (h r.key) r.sh r.key r.value r.version).2 rs :=
      rfl
    rw [hrun, hget k]
    cases hlw : last_write rs k with
    | some x =>
      simp only [last_write, hlw]
    | none =>
      simp only [last_write, hlw]
      by_cases hrk : r.key = k
      · rw [if_pos hrk]
        subst hrk
        rw [hps]
        exact get_put_state_same P s (h r.key) r.sh r.key r.value r.version
          hI (hh r.key) h3
      · rw [if_neg hrk]
        rw [hps]
        exact get_put_state_other P s (h r.key) r.sh r.key r.value r.version
          hI hPI (hh r.key) h3 (h k) k (fun hc => hrk hc.symm)

/-- Claim C1 (amended): for every sequence of PUTs on a fresh shard that
all return `SUCCESS`, where the primary hash of each key is supplied by a
hash function whose values avoid the slot sentinels `0` (empty) and `1`
(dead), a subsequent `get` with a key's hash returns exactly the value
list and version supplied by the most recent successful PUT for that
key. -/
theorem C1_put_get_roundtrip (P : params) (h : List Nat → Nat)
    (hh : ∀ k, 2 ≤ h k) (rs : List put_req)
    (hok : all_success P h (create P) rs = true)
    (k : List Nat) (vs : List (List Nat)) (ver : Nat)
    (hlw : last_write rs k = some (vs, ver)) :
    get P (run_puts P h (create P) rs) (h k) k = some (vs, ver) := by
  obtain ⟨-, -, hget⟩ := run_puts_spec P h hh rs (create P) (Inv_create P)
    (ProbeInv_create P) hok
  rw [hget k, hlw]

/-- Witness for C1: two successful PUTs of the same key (hash `2`), then a
GET returns the values and version of the second. -/
theorem C1_put_get_roundtrip_witness :
    get Pw (run_puts Pw (fun _ => 2) (create Pw)
        [⟨0, [1], [[5]], 1⟩, ⟨0, [1], [[6]], 2⟩]) 2 [1] = some ([[6]], 2) :=
  C1_put_get_roundtrip Pw (fun _ => 2) (fun _ => le_refl 2)
    [⟨0, [1], [[5]], 1⟩, ⟨0, [1], [[6]], 2⟩] (by decide) [1] [[6]] 2
    (by decide)

/-- Claim C1 counterexample: a single PUT whose primary hash is the empty
sentinel `0` returns `SUCCESS`, yet the subsequent GET for that key
returns `NOTFOUND` — the stored hash `0` makes the slot look empty, so the
probe stops there and reports the key absent.  The claim as stated
(quantifying over every sequence of successful PUTs) is therefore
false. -/
theorem C1_counterexample :
    all_success Pc (fun _ => 0) (create Pc) [⟨0, [1], [[5]], 7⟩] = true ∧
    last_write [⟨0, [1], [[5]], 7⟩] [1] = some ([[5]], 7) ∧
    get Pc (run_puts Pc (fun _ => 0) (create Pc) [⟨0, [1], [[5]], 7⟩])
      0 [1] = none := by
  exact ⟨by decide, by decide, by decide⟩

/-- Claim C5: after a `del` that returns `SUCCESS` (the key was present),
a subsequent `get` for that key returns `NOTFOUND`, and the hash-table
slot that referenced the key is marked dead with `hash == 1` and
`offset == 0`. -/
theorem C5_del_notfound (P : params) (s : shard) (hPI : ProbeInv P s)
    (ph : Nat) (key : List Nat)
    (hdel : (del P s ph key).1 = returncode.SUCCESS) :
    get P (del P s ph key).2 ph key = none ∧
    ∃ b, b < P.HASH_TABLE_ENTRIES ∧ (s.hash_table b).hash = ph ∧
      keyAt s.data (s.hash_table b).offset = some key ∧
      (del P s ph key).2.hash_table b = ⟨1, 0⟩ := by
  obtain ⟨hm, -, hds⟩ := del_eq_of_success P s ph key hdel
  constructor
  · rw [hds]
    exact get_del_state P s ph key hPI hm
  · obtain ⟨p, hpn, hb, hmt0, -, -⟩ := find_bucket_matched_spec P s ph key hm
    refine ⟨(find_bucket P s ph key).1,
      find_bucket_lt_of_matched P s ph key hm,
      hmt0.2.2.2.1, hmt0.2.2.2.2, ?_⟩
    rw [hds]
    exact del_state_entry_hash_table P s ph key

/-- Witness for C5: DEL of the one stored key of the concrete shard, then
GET returns `NOTFOUND` and its slot is dead. -/
theorem C5_del_notfound_witness :
    get Pw (del Pw sw1 2 [1, 2]).2 2 [1, 2] = none ∧
    ∃ b, b < Pw.HASH_TABLE_ENTRIES ∧ (sw1.hash_table b).hash = 2 ∧
      keyAt sw1.data (sw1.hash_table b).offset = some [1, 2] ∧
      (del Pw sw1 2 [1, 2]).2.hash_table b = ⟨1, 0⟩ := by
  have hps := put_eq_of_success Pw (create Pw) 2 3 [1, 2] [[7], [8]] 5
    (by decide)
  have hPI : ProbeInv Pw sw1 := by
    show ProbeInv Pw (put Pw (create Pw) 2 3 [1, 2] [[7], [8]] 5).2
    rw [hps]
    exact ProbeInv_put_state Pw (create Pw) 2 3 [1, 2] [[7], [8]] 5
      (Inv_create Pw) (ProbeInv_create Pw) (by omega) (by decide)
  exact C5_del_notfound Pw sw1 hPI 2 [1, 2] (by decide)

end Hyperdisk
